import Mathlib

/-!
Verification of the Huffman codec in `compression_encoder.py`.

The pure core of the program (`build_huffman_tree`, `build_codes`,
`compress_file`, `decompress_file`) is shallowly embedded below.  Texts are
lists of characters, bitstrings are lists of booleans (`false` = '0',
`true` = '1'), Python dicts are insertion-ordered association lists, byte
strings are lists of naturals, and a raised exception is `Option.none`.
The file I/O of `compress_file` and `decompress_file` is modelled by taking
the file contents as arguments and returning the written contents.
-/

namespace HuffmanApp

/-- A node of the Huffman tree as built by the reference implementation:
either a leaf carrying a character and its frequency, or an internal node
carrying a frequency and two children (the reference only ever creates
internal nodes with both children present). -/
inductive Node where
  | leaf (char : Char) (freq : Nat)
  | node (freq : Nat) (left : Node) (right : Node)
deriving DecidableEq, Repr

/-- The `freq` field of a node. -/
def Node.freq : Node → Nat
  | .leaf _ f => f
  | .node f _ _ => f

/-- True on the internal nodes created by the merging loop. -/
def Node.isInternal : Node → Bool
  | .leaf _ _ => false
  | .node _ _ _ => true

/-- One step of `collections.Counter`: increment the count of `c`, keeping
first-occurrence insertion order. -/
def bump : List (Char × Nat) → Char → List (Char × Nat)
  | [], c => [(c, 1)]
  | (k, n) :: rest, c => if k = c then (k, n + 1) :: rest else (k, n) :: bump rest c

/-- `collections.Counter(text)`: the frequency map of the text, as an
insertion-ordered association list. -/
def counter (text : List Char) : List (Char × Nat) :=
  text.foldl bump []

/-- Model of popping from the `heapq` min-priority queue used by the
source: remove the leftmost node of minimal frequency (`Node.__lt__`
compares frequencies only; the tie order among equal frequencies is an
unspecified heap artifact of the reference, fixed here as leftmost
first). -/
def popMin : List Node → Option (Node × List Node)
  | [] => none
  | n :: rest =>
    match popMin rest with
    | none => some (n, [])
    | some (m, r) => if m.freq < n.freq then some (m, n :: r) else some (n, rest)

/-- The merging loop of `build_huffman_tree`: while more than one node
remains, pop the two lowest-frequency nodes, merge them into an internal
node whose frequency is their sum, and push the result back.  The fuel is
an upper bound on the iteration count (each iteration shrinks the heap by
one), which keeps the recursion structural. -/
def hloop : Nat → List Node → List Node
  | 0, heap => heap
  | fuel + 1, heap =>
    if heap.length ≤ 1 then heap
    else
      match popMin heap with
      | none => heap
      | some (n1, r1) =>
        match popMin r1 with
        | none => heap
        | some (n2, r2) => hloop fuel (r2 ++ [Node.node (n1.freq + n2.freq) n1 n2])

/-- `build_huffman_tree(text)`: count frequencies, make one leaf per
distinct character, merge until a single root remains; `None` for empty
text (`heap[0] if heap else None`). -/
def build_huffman_tree (text : List Char) : Option Node :=
  let heap := (counter text).map (fun p => Node.leaf p.1 p.2)
  match hloop heap.length heap with
  | [] => none
  | n :: _ => some n

/-- A code table: insertion-ordered association list from characters to
bitstrings, modelling the Python dict `codes`. -/
abbrev CodeTable := List (Char × List Bool)

/-- Python dict assignment `d[k] = v`: update in place when the key is
present, otherwise append at the end. -/
def alistInsert {α β : Type} [DecidableEq α] : List (α × β) → α → β → List (α × β)
  | [], k, v => [(k, v)]
  | (k0, v0) :: rest, k, v =>
    if k0 = k then (k, v) :: rest else (k0, v0) :: alistInsert rest k v

/-- Python dict lookup `d[k]` / `k in d`, as an `Option`. -/
def alistLookup {α β : Type} [DecidableEq α] : List (α × β) → α → Option β
  | [], _ => none
  | (k0, v0) :: rest, k => if k0 = k then some v0 else alistLookup rest k

/-- The recursive body of `build_codes`: walk the tree, appending a 0-bit
when descending left and a 1-bit when descending right, and record the
accumulated path for every node that carries a character (the leaves).
`codes` is the accumulator dict that the reference shares through its
mutable default argument. -/
def build_codes_aux : Node → List Bool → CodeTable → CodeTable
  | .leaf c _, cur, codes => alistInsert codes c cur
  | .node _ l r, cur, codes =>
    build_codes_aux r (cur ++ [true]) (build_codes_aux l (cur ++ [false]) codes)

/-- `build_codes(root)` together with the hidden accumulator state: the
`codes={}` default argument is a single mutable dict shared by every call
in a process, so a call both reads and updates it.  On a `None` root the
function executes a bare `return`, yielding `None` and leaving the shared
dict alone. -/
def build_codes_st (root : Option Node) (st : CodeTable) : Option CodeTable × CodeTable :=
  match root with
  | none => (none, st)
  | some t =>
    let r := build_codes_aux t [] st
    (some r, r)

/-- `build_codes(root)` as called in a fresh process (empty accumulator). -/
def build_codes (root : Option Node) : Option CodeTable :=
  (build_codes_st root []).1

/-- `int(s, 2)`: parse a bitstring as a binary integer. -/
def bitsToNat (bits : List Bool) : Nat :=
  bits.foldl (fun n b => 2 * n + b.toNat) 0

/-- The packing loop of `compress_file`: cut the padded bitstring into
groups of eight bits and parse each group as one byte value. -/
def pack : List Bool → List Nat
  | [] => []
  | b1 :: b2 :: b3 :: b4 :: b5 :: b6 :: b7 :: b8 :: rest =>
    bitsToNat [b1, b2, b3, b4, b5, b6, b7, b8] :: pack rest
  | bits => [bitsToNat bits]

/-- `''.join(codes[char] for char in text)`: concatenate, in input order,
the code of each character of the text; a missing key (`KeyError`) or a
`None` table (`TypeError`) aborts the call, but an empty text never
evaluates a lookup. -/
def encode_text (codes : Option CodeTable) : List Char → Option (List Bool)
  | [] => some []
  | c :: rest =>
    match codes with
    | none => none
    | some tbl =>
      match alistLookup tbl c, encode_text codes rest with
      | some bits, some restBits => some (bits ++ restBits)
      | _, _ => none

/-- The zero padding appended by `compress_file`:
`encoded_text + '0' * ((8 - len(encoded_text) % 8) % 8)`. -/
def padBits (bits : List Bool) : List Bool :=
  bits ++ List.replicate ((8 - bits.length % 8) % 8) false

/-- `compress_file` with the hidden `build_codes` accumulator made
explicit: the first component is the pair of file contents written
(packed bytes, and the dict serialized to `codes.json`, where `none` is
the JSON `null` the reference emits for empty input), or `none` for an
uncaught exception; the second component is the accumulator state after
the call. -/
def compress_file_st (text : List Char) (st : CodeTable) :
    Option (List Nat × Option CodeTable) × CodeTable :=
  let root := build_huffman_tree text
  let (codes, st1) := build_codes_st root st
  match encode_text codes text with
  | none => (none, st1)
  | some bits => (some (pack (padBits bits), codes), st1)

/-- `compress_file` in a fresh process. -/
def compress_file (text : List Char) : Option (List Nat × Option CodeTable) :=
  (compress_file_st text []).1

/-- Minimal binary digits of `n`, most significant first.  The fuel makes
the halving recursion structural; `natBinAux n n` is the full digit
list. -/
def natBinAux : Nat → Nat → List Bool
  | 0, _ => []
  | _, 0 => []
  | fuel + 1, n => natBinAux fuel (n / 2) ++ [n % 2 == 1]

/-- `format(n, 'b')`: minimal binary digits, `[false]` for zero. -/
def natBin (n : Nat) : List Bool :=
  if n = 0 then [false] else natBinAux n n

/-- `f"{byte:08b}"`: binary digits left padded with zeros to at least
eight characters. -/
def byteBits (n : Nat) : List Bool :=
  List.replicate (8 - (natBin n).length) false ++ natBin n

/-- `bit_string = ''.join(f"{byte:08b}" for byte in byte_data)`. -/
def bytesBits (bytes : List Nat) : List Bool :=
  (bytes.map byteBits).flatten

/-- `reverse_codes = {v: k for k, v in codes.items()}`: invert the table;
a duplicated bitstring is silently overwritten, the last entry winning. -/
def reverse_codes (codes : CodeTable) : List (List Bool × Char) :=
  codes.foldl (fun acc p => alistInsert acc p.2 p.1) []

/-- The decoding loop of `decompress_file`: feed the bits one at a time
into an accumulator; whenever the accumulator is a key of the reverse map,
emit the matching character and reset.  Returns the emitted characters and
the final accumulator, which the reference silently discards. -/
def scanBits (rev : List (List Bool × Char)) :
    List Bool → List Bool → List Char → List Char × List Bool
  | [], cur, out => (out, cur)
  | b :: rest, cur, out =>
    match alistLookup rev (cur ++ [b]) with
    | some c => scanBits rev rest [] (out ++ [c])
    | none => scanBits rev rest (cur ++ [b]) out

/-- `decompress_file`: expand the bytes into bits, invert the supplied
table, scan, and write the emitted characters; a JSON `null` table fails
(`None.items()` raises `AttributeError`). -/
def decompress_file (byte_data : List Nat) (codes : Option CodeTable) :
    Option (List Char) :=
  match codes with
  | none => none
  | some tbl => some (scanBits (reverse_codes tbl) (bytesBits byte_data) [] []).1

/-! ## C2: single-symbol input -/

/-- C2: the claim fails on the code.  At the failing input "aaaa",
compression produces the one-entry code table mapping 'a' to the EMPTY
bitstring (not a non-empty single-bit code) and empty packed bytes, and
decompressing that package yields the empty text, not "aaaa". -/
theorem C2_single_symbol_eval :
    compress_file ['a', 'a', 'a', 'a'] = some ([], some [('a', ([] : List Bool))]) ∧
    decompress_file [] (some [('a', [])]) = some [] ∧
    some ([] : List Char) ≠ some ['a', 'a', 'a', 'a'] :=
  ⟨rfl, rfl, by decide⟩

/-! ## C3: empty input -/

/-- C3: the claim fails on the code.  Compressing the empty text does
produce empty packed bytes, but the code table written to `codes.json` is
JSON `null` (the bare `return` of `build_codes(None)`), not the empty
mapping, and decompressing that package raises (`None.items()`) instead of
yielding the empty text. -/
theorem C3_empty_input_eval :
    compress_file [] = some ([], none) ∧ decompress_file [] none = none :=
  ⟨rfl, rfl⟩

/-! ## C7: purity of compress -/

/-- C7: the claim fails on the code.  Because `build_codes` shares one
mutable dict across calls through its default argument, compressing "cd"
after an earlier call on "ab" emits a code table polluted with the stale
entries for 'a' and 'b', unlike a fresh call on "cd"; two calls on the
identical input "ab" do agree. -/
theorem C7_shared_state_eval :
    (compress_file_st ['c', 'd'] (compress_file_st ['a', 'b'] []).2).1 ≠
      compress_file ['c', 'd'] ∧
    (compress_file_st ['a', 'b'] (compress_file_st ['a', 'b'] []).2).1 =
      compress_file ['a', 'b'] :=
  ⟨by decide, rfl⟩

/-! ## Association-list toolkit -/

theorem alistLookup_alistInsert {α β : Type} [DecidableEq α]
    (m : List (α × β)) (k : α) (v : β) (k' : α) :
    alistLookup (alistInsert m k v) k' = if k = k' then some v else alistLookup m k' := by
  induction m with
  | nil => simp [alistInsert, alistLookup]
  | cons p rest ih =>
    obtain ⟨k0, v0⟩ := p
    by_cases h0 : k0 = k
    · subst h0
      simp only [alistInsert, if_pos rfl, alistLookup]
      split_ifs <;> rfl
    · simp only [alistInsert, if_neg h0, alistLookup, ih]
      by_cases h1 : k0 = k'
      · subst h1
        rw [if_pos rfl, if_neg (fun hk : k = k0 => h0 hk.symm), if_pos rfl]
      · rw [if_neg h1]
        by_cases h2 : k = k'
        · rw [if_pos h2, if_pos h2]
        · rw [if_neg h2, if_neg h2, if_neg h1]

theorem reverse_codes_append (tbl : CodeTable) (b : Char) (v : List Bool) :
    reverse_codes (tbl ++ [(b, v)]) = alistInsert (reverse_codes tbl) v b := by
  unfold reverse_codes
  rw [List.foldl_append]
  rfl

/-- Splitting a prefix of `l ++ [b]`: it is a prefix of `l` or the whole
list. -/
theorem prefix_snoc_cases {α : Type} {q l : List α} {b : α} (h : q <+: l ++ [b]) :
    q <+: l ∨ q = l ++ [b] := by
  rcases Nat.lt_or_ge q.length (l ++ [b]).length with hlt | hge
  · left
    refine List.prefix_of_prefix_length_le h (List.prefix_append l [b]) ?_
    simp only [List.length_append, List.length_cons, List.length_nil] at hlt
    omega
  · right
    exact List.IsPrefix.eq_of_length h (Nat.le_antisymm h.length_le hge)

/-- Invariant of the decoding loop: every nonempty accumulated bitstring it
leaves behind, together with all of that bitstring's nonempty prefixes (the
successive states of the accumulator), failed to match the reverse map. -/
theorem scanBits_leftover (rev : List (List Bool × Char)) :
    ∀ (bits cur : List Bool) (out : List Char),
      (∀ q, q ≠ [] → q <+: cur → alistLookup rev q = none) →
      ∀ q, q ≠ [] → q <+: (scanBits rev bits cur out).2 → alistLookup rev q = none := by
  intro bits
  induction bits with
  | nil =>
    intro cur out h q hq hpre
    exact h q hq hpre
  | cons b rest ih =>
    intro cur out h q hq hpre
    cases hm : alistLookup rev (cur ++ [b]) with
    | some c =>
      simp only [scanBits, hm] at hpre
      refine ih [] (out ++ [c]) ?_ q hq hpre
      intro q' hq' hpre'
      rw [List.prefix_nil] at hpre'
      exact absurd hpre' hq'
    | none =>
      simp only [scanBits, hm] at hpre
      refine ih (cur ++ [b]) out ?_ q hq hpre
      intro q' hq' hpre'
      rcases prefix_snoc_cases hpre' with hc | hc
      · exact h q' hq' hc
      · rw [hc]
        exact hm

/-! ## C8: duplicate bitstrings in the table -/

/-- C8: the claim fails on the code.  Supplying a table in which 'a' and
'b' share the code "0" does not raise a `CorruptTableError`; decoding the
byte 0 proceeds and emits eight symbols, each decoded through the
silently-overwritten reverse map (last entry 'b' wins). -/
theorem C8_counterexample :
    decompress_file [0] (some [('a', [false]), ('b', [false])]) =
      some ['b', 'b', 'b', 'b', 'b', 'b', 'b', 'b'] := by
  decide

/-- C8 amended: when the forward table contains duplicate bitstrings, no
error is raised: building the reverse map silently keeps, for each
duplicated bitstring, the last symbol in table order, and decoding any
byte sequence with such a table still succeeds. -/
theorem C8_duplicate_last_wins (tbl : CodeTable) (b : Char) (v : List Bool)
    (bytes : List Nat) :
    alistLookup (reverse_codes (tbl ++ [(b, v)])) v = some b ∧
    ∃ out, decompress_file bytes (some (tbl ++ [(b, v)])) = some out := by
  constructor
  · rw [reverse_codes_append, alistLookup_alistInsert, if_pos rfl]
  · exact ⟨_, rfl⟩

/-! ## C9: unmatched trailing bits -/

/-- C9: the claim fails on the code.  Decoding the byte 0 with the table
mapping 'a' to "11" ends its scan with the non-empty accumulator
"00000000", whose every nonempty prefix failed to match, yet
`decompress_file` raises no `DecodingError`: it succeeds and silently
discards the unmatched bits, returning the empty text. -/
theorem C9_counterexample :
    (scanBits (reverse_codes [('a', [true, true])]) (bytesBits [0]) [] []).2 ≠ [] ∧
    (∀ q, q ≠ [] →
      q <+: (scanBits (reverse_codes [('a', [true, true])]) (bytesBits [0]) [] []).2 →
      alistLookup (reverse_codes [('a', [true, true])]) q = none) ∧
    decompress_file [0] (some [('a', [true, true])]) = some [] := by
  refine ⟨by decide, ?_, rfl⟩
  intro q hq hpre
  refine scanBits_leftover _ _ _ _ ?_ q hq hpre
  intro q' hq' hpre'
  rw [List.prefix_nil] at hpre'
  exact absurd hpre' hq'

/-- C9 amended: when the left-to-right bit scan ends with a non-empty
accumulated bitstring, that bitstring (and each of its nonempty prefixes,
the successive accumulator states) never matched the reverse map, and the
decoder raises no error: it returns exactly the symbols already emitted,
silently discarding the unmatched trailing bits. -/
theorem C9_no_error (bytes : List Nat) (tbl : CodeTable) (out : List Char)
    (leftover : List Bool)
    (h : scanBits (reverse_codes tbl) (bytesBits bytes) [] [] = (out, leftover))
    (hne : leftover ≠ []) :
    decompress_file bytes (some tbl) = some out ∧
    ∀ q, q ≠ [] → q <+: leftover → alistLookup (reverse_codes tbl) q = none := by
  constructor
  · simp [decompress_file, h]
  · intro q hq hpre
    refine scanBits_leftover (reverse_codes tbl) (bytesBits bytes) [] [] ?_ q hq ?_
    · intro q' hq' hpre'
      rw [List.prefix_nil] at hpre'
      exact absurd hpre' hq'
    · rw [h]
      exact hpre

/-- C9 witness: a concrete run with unmatched trailing bits. -/
theorem C9_no_error_witness :
    decompress_file [0] (some [('a', [true, true])]) = some [] ∧
    ∀ q, q ≠ [] → q <+: List.replicate 8 false →
      alistLookup (reverse_codes [('a', [true, true])]) q = none :=
  C9_no_error [0] [('a', [true, true])] [] (List.replicate 8 false) (by decide)
    (by decide)

/-! ## C6: bit packing -/

/-- Transcribed from the spec's words for comparison with the code (C6):
the value of a byte read most significant bit first, each bit weighted by
two to the number of bits after it. -/
def specByteVal : List Bool → Nat
  | [] => 0
  | b :: rest => b.toNat * 2 ^ rest.length + specByteVal rest

/-- Transcribed from the spec's words for comparison with the code (C6):
group a bit sequence into bytes of eight bits, most significant bit
first. -/
def spec_group : List Bool → List Nat
  | [] => []
  | b1 :: b2 :: b3 :: b4 :: b5 :: b6 :: b7 :: b8 :: rest =>
    specByteVal [b1, b2, b3, b4, b5, b6, b7, b8] :: spec_group rest
  | bits => [specByteVal bits]

theorem bitsToNat_from (bits : List Bool) : ∀ acc : Nat,
    bits.foldl (fun n b => 2 * n + b.toNat) acc =
      acc * 2 ^ bits.length + specByteVal bits := by
  induction bits with
  | nil => intro acc; simp [specByteVal]
  | cons b rest ih =>
    intro acc
    simp only [List.foldl_cons, ih, specByteVal, List.length_cons]
    ring

/-- `int(s, 2)` parses exactly the most-significant-bit-first value the
spec describes. -/
theorem bitsToNat_eq_specByteVal (bits : List Bool) : bitsToNat bits = specByteVal bits := by
  have h := bitsToNat_from bits 0
  simpa [bitsToNat] using h

theorem exists_cons8 {α : Type} (bits : List α) (h : 8 ≤ bits.length) :
    ∃ b1 b2 b3 b4 b5 b6 b7 b8 rest,
      bits = b1 :: b2 :: b3 :: b4 :: b5 :: b6 :: b7 :: b8 :: rest := by
  rcases bits with _ | ⟨b1, _ | ⟨b2, _ | ⟨b3, _ | ⟨b4, _ | ⟨b5, _ | ⟨b6, _ | ⟨b7, _ | ⟨b8, rest⟩⟩⟩⟩⟩⟩⟩⟩ <;>
    first
      | exact ⟨_, _, _, _, _, _, _, _, _, rfl⟩
      | (simp only [List.length_nil, List.length_cons] at h; omega)

/-- The packing loop equals the spec's grouping on every bitstring. -/
theorem pack_eq_spec_group (bits : List Bool) : pack bits = spec_group bits := by
  induction bits using pack.induct with
  | case1 => rfl
  | case2 b1 b2 b3 b4 b5 b6 b7 b8 rest ih =>
    simp only [pack, spec_group, ih, bitsToNat_eq_specByteVal]
  | case3 bits h1 h2 =>
    rcases bits with _ | ⟨b1, _ | ⟨b2, _ | ⟨b3, _ | ⟨b4, _ | ⟨b5, _ | ⟨b6, _ | ⟨b7, _ | ⟨b8, rest⟩⟩⟩⟩⟩⟩⟩⟩
    · exact absurd rfl h1
    all_goals
      first
        | exact absurd rfl (h2 _ _ _ _ _ _ _ _ _)
        | simp [pack, spec_group, bitsToNat_eq_specByteVal]

theorem pack_length (bits : List Bool) (h : bits.length % 8 = 0) :
    8 * (pack bits).length = bits.length := by
  revert h
  induction bits using pack.induct with
  | case1 => intro h; rfl
  | case2 b1 b2 b3 b4 b5 b6 b7 b8 rest ih =>
    intro h
    simp only [List.length_cons] at h
    have hr : rest.length % 8 = 0 := by omega
    have := ih hr
    simp only [pack, List.length_cons]
    omega
  | case3 bits h1 h2 =>
    intro h
    have hne : bits ≠ [] := fun hh => h1 hh
    have hlen : 8 ≤ bits.length := by
      have hpos : 0 < bits.length := List.length_pos.mpr hne
      omega
    obtain ⟨b1, b2, b3, b4, b5, b6, b7, b8, rest, rfl⟩ := exists_cons8 bits hlen
    exact absurd rfl (h2 _ _ _ _ _ _ _ _ _)

theorem bytesBits_cons (n : Nat) (ns : List Nat) :
    bytesBits (n :: ns) = byteBits n ++ bytesBits ns := by
  simp [bytesBits]

/-- Expanding a packed byte recovers its eight bits (exhaustive check of
all 256 bytes). -/
theorem byteBits_bitsToNat8 : ∀ b1 b2 b3 b4 b5 b6 b7 b8 : Bool,
    byteBits (bitsToNat [b1, b2, b3, b4, b5, b6, b7, b8]) =
      [b1, b2, b3, b4, b5, b6, b7, b8] := by
  decide

/-- Unpacking inverts packing on byte-aligned bitstrings. -/
theorem bytesBits_pack (bits : List Bool) (h : bits.length % 8 = 0) :
    bytesBits (pack bits) = bits := by
  revert h
  induction bits using pack.induct with
  | case1 => intro h; rfl
  | case2 b1 b2 b3 b4 b5 b6 b7 b8 rest ih =>
    intro h
    simp only [List.length_cons] at h
    have hr : rest.length % 8 = 0 := by omega
    rw [pack, bytesBits_cons, byteBits_bitsToNat8, ih hr]
    rfl
  | case3 bits h1 h2 =>
    intro h
    have hne : bits ≠ [] := fun hh => h1 hh
    have hlen : 8 ≤ bits.length := by
      have hpos : 0 < bits.length := List.length_pos.mpr hne
      omega
    obtain ⟨b1, b2, b3, b4, b5, b6, b7, b8, rest, rfl⟩ := exists_cons8 bits hlen
    exact absurd rfl (h2 _ _ _ _ _ _ _ _ _)

theorem padBits_length_mod (bits : List Bool) : (padBits bits).length % 8 = 0 := by
  simp only [padBits, List.length_append, List.length_replicate]
  omega

/-- `compress_file` unfolded to its encode-pack pipeline. -/
theorem compress_file_eq (text : List Char) :
    compress_file text =
      match encode_text (build_codes (build_huffman_tree text)) text with
      | none => none
      | some bits =>
        some (pack (padBits bits), build_codes (build_huffman_tree text)) := by
  have hb : (build_codes_st (build_huffman_tree text) []).1 =
      build_codes (build_huffman_tree text) := rfl
  cases h : encode_text (build_codes (build_huffman_tree text)) text <;>
    simp [compress_file, compress_file_st, hb, h]

theorem encode_text_eq_flatten (tbl : CodeTable) (f : Char → List Bool) :
    ∀ text : List Char, (∀ c ∈ text, alistLookup tbl c = some (f c)) →
      encode_text (some tbl) text = some ((text.map f).flatten) := by
  intro text
  induction text with
  | nil => intro _; rfl
  | cons c rest ih =>
    intro hmem
    have hc : alistLookup tbl c = some (f c) := hmem c (List.mem_cons_self c rest)
    have hr := ih fun x hx => hmem x (List.mem_cons_of_mem c hx)
    simp only [encode_text, hc, hr, List.map_cons, List.flatten_cons]

/-- C6: confirmed.  The bytes written by `compress_file` are exactly the
concatenation, in input order, of each input symbol's code bits, zero
padded to the next multiple of eight bits and grouped into bytes most
significant bit first (`spec_group` and `specByteVal` transcribe the
spec's wording), and eight times the byte count is the padded bit
length. -/
theorem C6_bit_packing (text : List Char) (bytes : List Nat)
    (ctbl : Option CodeTable) (tbl : CodeTable) (f : Char → List Bool)
    (bits : List Bool)
    (hcomp : compress_file text = some (bytes, ctbl))
    (htbl : ctbl = some tbl)
    (hf : ∀ c ∈ text, alistLookup tbl c = some (f c))
    (hbits : bits = (text.map f).flatten) :
    encode_text ctbl text = some bits ∧
    bytes = spec_group (bits ++ List.replicate ((8 - bits.length % 8) % 8) false) ∧
    8 * bytes.length = bits.length + (8 - bits.length % 8) % 8 := by
  subst htbl hbits
  have henc : encode_text (some tbl) text = some ((text.map f).flatten) :=
    encode_text_eq_flatten tbl f text hf
  rw [compress_file_eq] at hcomp
  cases hct : build_codes (build_huffman_tree text) with
  | none =>
    rw [hct] at hcomp
    cases text with
    | nil =>
      simp only [encode_text] at hcomp
      cases hcomp
    | cons c rest =>
      simp only [encode_text] at hcomp
      cases hcomp
  | some tbl' =>
    rw [hct] at hcomp
    by_cases htt : tbl' = tbl
    · subst htt
      rw [henc] at hcomp
      have hb : bytes = pack (padBits ((text.map f).flatten)) := by
        cases hcomp
        rfl
      refine ⟨henc, ?_, ?_⟩
      · rw [hb, pack_eq_spec_group]
        rfl
      · rw [hb]
        have h8 := pack_length (padBits ((text.map f).flatten)) (padBits_length_mod _)
        simp only [padBits, List.length_append, List.length_replicate] at h8
        exact h8
    · exfalso
      cases henc2 : encode_text (some tbl') text with
      | none =>
        rw [henc2] at hcomp
        cases hcomp
      | some bits2 =>
        rw [henc2] at hcomp
        cases hcomp
        exact htt rfl

/-- C6 witness: the concrete run on "ab". -/
theorem C6_bit_packing_witness :
    encode_text (some [('a', [false]), ('b', [true])]) ['a', 'b'] = some [false, true] ∧
    [64] = spec_group ([false, true] ++
      List.replicate ((8 - [false, true].length % 8) % 8) false) ∧
    8 * [64].length = [false, true].length + (8 - [false, true].length % 8) % 8 :=
  C6_bit_packing ['a', 'b'] [64] (some [('a', [false]), ('b', [true])])
    [('a', [false]), ('b', [true])]
    (fun c => if c = 'a' then [false] else [true]) [false, true]
    (by decide) rfl (by decide) (by decide)

/-! ## C4: the code table is prefix-free -/

/-- The characters of the leaves of a tree with their root-relative paths,
in the traversal order of `build_codes`. -/
def relPaths : Node → List (Char × List Bool)
  | .leaf c _ => [(c, [])]
  | .node _ l r =>
    (relPaths l).map (fun p => (p.1, false :: p.2)) ++
      (relPaths r).map (fun p => (p.1, true :: p.2))

/-- `build_codes_aux` is the fold of dict assignments over the leaf
paths. -/
theorem build_codes_aux_eq (t : Node) : ∀ (pre : List Bool) (init : CodeTable),
    build_codes_aux t pre init =
      List.foldl (fun acc p => alistInsert acc p.1 p.2) init
        ((relPaths t).map (fun p => (p.1, pre ++ p.2))) := by
  induction t with
  | leaf c f =>
    intro pre init
    simp [build_codes_aux, relPaths]
  | node f l r ihl ihr =>
    intro pre init
    have h1 : ∀ b : Bool, ((fun p : Char × List Bool => (p.1, pre ++ p.2)) ∘
        (fun p : Char × List Bool => (p.1, b :: p.2))) =
        (fun p : Char × List Bool => (p.1, (pre ++ [b]) ++ p.2)) := by
      intro b
      funext p
      simp
    simp only [build_codes_aux, relPaths, List.map_append, List.foldl_append,
      List.map_map, h1, ihl, ihr]

theorem mem_alistInsert {α β : Type} [DecidableEq α] (m : List (α × β)) (k : α) (v : β)
    (p : α × β) (h : p ∈ alistInsert m k v) : p ∈ m ∨ p = (k, v) := by
  induction m with
  | nil =>
    simp only [alistInsert, List.mem_singleton] at h
    exact Or.inr h
  | cons q rest ih =>
    obtain ⟨k0, v0⟩ := q
    by_cases h0 : k0 = k
    · simp only [alistInsert, if_pos h0, List.mem_cons] at h
      rcases h with h | h
      · exact Or.inr h
      · exact Or.inl (List.mem_cons_of_mem _ h)
    · simp only [alistInsert, if_neg h0, List.mem_cons] at h
      rcases h with h | h
      · exact Or.inl (h ▸ List.mem_cons_self _ _)
      · rcases ih h with h1 | h1
        · exact Or.inl (List.mem_cons_of_mem _ h1)
        · exact Or.inr h1

theorem mem_foldl_alistInsert {α β : Type} [DecidableEq α]
    (L : List (α × β)) : ∀ (init : List (α × β)) (p : α × β),
    p ∈ List.foldl (fun acc q => alistInsert acc q.1 q.2) init L →
      p ∈ init ∨ p ∈ L := by
  induction L with
  | nil =>
    intro init p h
    exact Or.inl h
  | cons q rest ih =>
    intro init p h
    rcases ih _ p h with h1 | h1
    · rcases mem_alistInsert _ _ _ _ h1 with h2 | h2
      · exact Or.inl h2
      · exact Or.inr (h2 ▸ List.mem_cons_self _ _)
    · exact Or.inr (List.mem_cons_of_mem _ h1)

/-- Two table entries are path-disjoint when neither bitstring is a
prefix of the other. -/
def pathsDisjoint (p q : Char × List Bool) : Prop :=
  ¬ p.2 <+: q.2 ∧ ¬ q.2 <+: p.2

theorem pathsDisjoint_symm : Symmetric pathsDisjoint :=
  fun _ _ h => ⟨h.2, h.1⟩

/-- Leaf paths of a strict binary tree are pairwise non-prefix: two
distinct leaf positions separate at their lowest common ancestor. -/
theorem pairwise_relPaths (t : Node) : (relPaths t).Pairwise pathsDisjoint := by
  induction t with
  | leaf c f => simp [relPaths]
  | node f l r ihl ihr =>
    simp only [relPaths]
    rw [List.pairwise_append]
    refine ⟨?_, ?_, ?_⟩
    · rw [List.pairwise_map]
      refine ihl.imp ?_
      intro p q h
      refine ⟨fun hc => h.1 ?_, fun hc => h.2 ?_⟩
      · exact (List.cons_prefix_cons.mp hc).2
      · exact (List.cons_prefix_cons.mp hc).2
    · rw [List.pairwise_map]
      refine ihr.imp ?_
      intro p q h
      refine ⟨fun hc => h.1 ?_, fun hc => h.2 ?_⟩
      · exact (List.cons_prefix_cons.mp hc).2
      · exact (List.cons_prefix_cons.mp hc).2
    · intro p hp q hq
      obtain ⟨p0, _, rfl⟩ := List.mem_map.mp hp
      obtain ⟨q0, _, rfl⟩ := List.mem_map.mp hq
      constructor
      · intro hc
        simpa using (List.cons_prefix_cons.mp hc).1
      · intro hc
        simpa using (List.cons_prefix_cons.mp hc).1

/-- The code table emitted by a successful compression is the dict built
from the leaf paths of the Huffman tree. -/
theorem compress_table_eq (text : List Char) (bytes : List Nat) (tbl : CodeTable)
    (hcomp : compress_file text = some (bytes, some tbl)) :
    ∃ t, build_huffman_tree text = some t ∧ tbl = build_codes_aux t [] [] := by
  rw [compress_file_eq] at hcomp
  cases hroot : build_huffman_tree text with
  | none =>
    rw [hroot] at hcomp
    cases text with
    | nil =>
      simp only [build_codes, build_codes_st, encode_text] at hcomp
      cases hcomp
    | cons c rest =>
      simp only [build_codes, build_codes_st, encode_text] at hcomp
      cases hcomp
  | some t =>
    rw [hroot] at hcomp
    refine ⟨t, rfl, ?_⟩
    have hbc : build_codes (some t) = some (build_codes_aux t [] []) := rfl
    rw [hbc] at hcomp
    cases henc : encode_text (some (build_codes_aux t [] [])) text with
    | none =>
      rw [henc] at hcomp
      cases hcomp
    | some bits =>
      rw [henc] at hcomp
      cases hcomp
      rfl

/-- Entries of the emitted code table are leaf paths of the tree. -/
theorem mem_compress_table (text : List Char) (bytes : List Nat) (tbl : CodeTable)
    (t : Node) (p : Char × List Bool)
    (hcomp : compress_file text = some (bytes, some tbl))
    (hroot : build_huffman_tree text = some t)
    (hp : p ∈ tbl) : p ∈ relPaths t := by
  obtain ⟨t', hroot', htbl⟩ := compress_table_eq text bytes tbl hcomp
  rw [hroot] at hroot'
  cases hroot'
  subst htbl
  rw [build_codes_aux_eq] at hp
  have hmap : (relPaths t).map (fun p => (p.1, [] ++ p.2)) = relPaths t := by
    simp
  rw [hmap] at hp
  rcases mem_foldl_alistInsert _ _ _ hp with h | h
  · cases h
  · exact h

/-- C4: confirmed.  The code table produced by compression is prefix-free:
the codes of two distinct symbols in the table are leaf paths of two
distinct leaves of the Huffman tree, and neither is a prefix of the
other. -/
theorem C4_prefix_free (text : List Char) (bytes : List Nat) (tbl : CodeTable)
    (a b : Char) (pa pb : List Bool)
    (hcomp : compress_file text = some (bytes, some tbl))
    (ha : (a, pa) ∈ tbl) (hb : (b, pb) ∈ tbl) (hab : a ≠ b) :
    ¬ pa <+: pb := by
  obtain ⟨t, hroot, -⟩ := compress_table_eq text bytes tbl hcomp
  have hpa := mem_compress_table text bytes tbl t (a, pa) hcomp hroot ha
  have hpb := mem_compress_table text bytes tbl t (b, pb) hcomp hroot hb
  have hne : (a, pa) ≠ (b, pb) := by
    intro h
    exact hab (congrArg Prod.fst h)
  have hd := (pairwise_relPaths t).forall pathsDisjoint_symm hpa hpb hne
  exact hd.1

/-- C4 witness: the table for "ab". -/
theorem C4_prefix_free_witness : ¬ [false] <+: [true] :=
  C4_prefix_free ['a', 'b'] [64] [('a', [false]), ('b', [true])] 'a' 'b'
    [false] [true] (by decide) (by decide) (by decide) (by decide)

/-! ## C10: shape of the Huffman tree -/

def countLeaves : Node → Nat
  | .leaf _ _ => 1
  | .node _ l r => countLeaves l + countLeaves r

def countInternal : Node → Nat
  | .leaf _ _ => 0
  | .node _ l r => countInternal l + countInternal r + 1

/-- Every internal node's stored frequency is the sum of its children's. -/
def freqOk : Node → Bool
  | .leaf _ _ => true
  | .node f l r => (f == Node.freq l + Node.freq r) && freqOk l && freqOk r

/-- The multiset of (character, frequency) pairs at the leaves. -/
def leafData : Node → Multiset (Char × Nat)
  | .leaf c f => {(c, f)}
  | .node _ l r => leafData l + leafData r

/-- The leaf data of a whole forest. -/
def forestLeafData (heap : List Node) : Multiset (Char × Nat) :=
  ((heap : Multiset Node).map leafData).sum

theorem forestLeafData_cons (n : Node) (rest : List Node) :
    forestLeafData (n :: rest) = leafData n + forestLeafData rest := by
  simp [forestLeafData]

theorem forestLeafData_append (l1 l2 : List Node) :
    forestLeafData (l1 ++ l2) = forestLeafData l1 + forestLeafData l2 := by
  simp [forestLeafData]

theorem forestLeafData_perm {l1 l2 : List Node} (h : List.Perm l1 l2) :
    forestLeafData l1 = forestLeafData l2 := by
  unfold forestLeafData
  rw [Multiset.coe_eq_coe.mpr h]

theorem card_leafData (t : Node) : (leafData t).card = countLeaves t := by
  induction t with
  | leaf c f => rfl
  | node f l r ihl ihr => simp [leafData, countLeaves, ihl, ihr]

theorem popMin_none_iff (heap : List Node) : popMin heap = none ↔ heap = [] := by
  cases heap with
  | nil => simp [popMin]
  | cons n rest =>
    cases hm : popMin rest with
    | none => simp [popMin, hm]
    | some p =>
      obtain ⟨m, r⟩ := p
      simp only [popMin, hm]
      constructor
      · intro h
        split at h <;> cases h
      · intro h
        cases h

theorem popMin_perm : ∀ (heap : List Node) (n : Node) (rest : List Node),
    popMin heap = some (n, rest) → List.Perm heap (n :: rest) := by
  intro heap
  induction heap with
  | nil => intro n rest h; cases h
  | cons a t ih =>
    intro n rest h
    simp only [popMin] at h
    cases hm : popMin t with
    | none =>
      rw [hm] at h
      cases h
      rw [(popMin_none_iff t).mp hm]
    | some p =>
      obtain ⟨m, r⟩ := p
      simp only [hm] at h
      by_cases hlt : m.freq < a.freq
      · rw [if_pos hlt] at h
        rw [Option.some.injEq, Prod.mk.injEq] at h
        obtain ⟨h2, h3⟩ := h
        rw [← h2, ← h3]
        have ht := ih m r hm
        exact (ht.cons a).trans (List.Perm.swap m a r)
      · rw [if_neg hlt] at h
        rw [Option.some.injEq, Prod.mk.injEq] at h
        obtain ⟨h2, h3⟩ := h
        rw [← h2, ← h3]

theorem popMin_min : ∀ (heap : List Node) (n : Node) (rest : List Node),
    popMin heap = some (n, rest) → ∀ m ∈ heap, n.freq ≤ m.freq := by
  intro heap
  induction heap with
  | nil => intro n rest h; cases h
  | cons a t ih =>
    intro n rest h m hm
    simp only [popMin] at h
    cases hp : popMin t with
    | none =>
      rw [hp] at h
      cases h
      rw [(popMin_none_iff t).mp hp] at hm
      rcases List.mem_cons.mp hm with rfl | hmt
      · exact Nat.le_refl _
      · simp at hmt
    | some p =>
      obtain ⟨m0, r0⟩ := p
      simp only [hp] at h
      by_cases hlt : m0.freq < a.freq
      · rw [if_pos hlt] at h
        cases h
        rcases List.mem_cons.mp hm with rfl | hmt
        · exact Nat.le_of_lt hlt
        · exact ih _ _ hp m hmt
      · rw [if_neg hlt] at h
        cases h
        rcases List.mem_cons.mp hm with rfl | hmt
        · exact Nat.le_refl _
        · have hle := ih _ _ hp m hmt
          omega

theorem popMin_length {heap : List Node} {n : Node} {rest : List Node}
    (h : popMin heap = some (n, rest)) : heap.length = rest.length + 1 := by
  have := (popMin_perm heap n rest h).length_eq
  simpa using this

theorem popMin_mem {heap : List Node} {n : Node} {rest : List Node}
    (h : popMin heap = some (n, rest)) {u : Node} (hu : u ∈ rest) : u ∈ heap :=
  (popMin_perm heap n rest h).mem_iff.mpr (List.mem_cons_of_mem _ hu)

theorem popMin_self_mem {heap : List Node} {n : Node} {rest : List Node}
    (h : popMin heap = some (n, rest)) : n ∈ heap :=
  (popMin_perm heap n rest h).mem_iff.mpr (List.mem_cons_self _ _)

theorem hloop_singleton : ∀ (fuel : Nat) (t : Node), hloop fuel [t] = [t] := by
  intro fuel t
  cases fuel with
  | zero => rfl
  | succ fuel => simp [hloop]

/-- Invariant of the merging loop: run with enough fuel on a nonempty
forest, it returns a single tree whose leaf data is the forest's; sum
frequencies, strictness counting, and internality are preserved. -/
theorem hloop_spec : ∀ (fuel : Nat) (heap : List Node),
    heap ≠ [] → heap.length ≤ fuel + 1 →
    ∃ root, hloop fuel heap = [root] ∧
      leafData root = forestLeafData heap ∧
      ((∀ u ∈ heap, freqOk u = true) → freqOk root = true) ∧
      ((∀ u ∈ heap, countInternal u + 1 = countLeaves u) →
        countInternal root + 1 = countLeaves root) ∧
      (2 ≤ heap.length → root.isInternal = true) := by
  intro fuel
  induction fuel with
  | zero =>
    intro heap hne hlen
    rcases heap with _ | ⟨t, _ | ⟨u, rest⟩⟩
    · exact absurd rfl hne
    · refine ⟨t, rfl, ?_, fun h => h t (List.mem_singleton_self t), fun h => h t (List.mem_singleton_self t), ?_⟩
      · simp [forestLeafData]
      · intro h2
        simp at h2
    · simp at hlen
  | succ fuel ih =>
    intro heap hne hlen
    by_cases hone : heap.length ≤ 1
    · rcases heap with _ | ⟨t, _ | ⟨u, rest⟩⟩
      · exact absurd rfl hne
      · refine ⟨t, hloop_singleton _ t, ?_, fun h => h t (List.mem_singleton_self t), fun h => h t (List.mem_singleton_self t), ?_⟩
        · simp [forestLeafData]
        · intro h2
          simp at h2
      · simp at hone
    · have h2 : 2 ≤ heap.length := by omega
      cases hp1 : popMin heap with
      | none => exact absurd ((popMin_none_iff heap).mp hp1) hne
      | some p1 =>
        obtain ⟨n1, r1⟩ := p1
        have hlen1 : heap.length = r1.length + 1 := popMin_length hp1
        have hr1ne : r1 ≠ [] := by
          intro h
          rw [h, List.length_nil] at hlen1
          omega
        cases hp2 : popMin r1 with
        | none => exact absurd ((popMin_none_iff r1).mp hp2) hr1ne
        | some p2 =>
          obtain ⟨n2, r2⟩ := p2
          have hlen2 : r1.length = r2.length + 1 := popMin_length hp2
          set merged := Node.node (n1.freq + n2.freq) n1 n2 with hmerged
          have hstep : hloop (fuel + 1) heap = hloop fuel (r2 ++ [merged]) := by
            simp only [hloop, if_neg hone, hp1, hp2]
          have hne' : r2 ++ [merged] ≠ [] := by simp
          have hlen' : (r2 ++ [merged]).length ≤ fuel + 1 := by
            simp only [List.length_append, List.length_cons, List.length_nil]
            omega
          obtain ⟨root, hr, hld, hfr, hct, hint⟩ := ih (r2 ++ [merged]) hne' hlen'
          have hmemr2 : ∀ u ∈ r2, u ∈ heap := fun u hu =>
            popMin_mem hp1 (popMin_mem hp2 hu)
          have hn1mem : n1 ∈ heap := popMin_self_mem hp1
          have hn2mem : n2 ∈ heap := popMin_mem hp1 (popMin_self_mem hp2)
          refine ⟨root, hstep ▸ hr, ?_, ?_, ?_, ?_⟩
          · rw [hld]
            have e1 : forestLeafData (r2 ++ [merged]) =
                forestLeafData r2 + leafData merged := by
              rw [forestLeafData_append, forestLeafData_cons]
              have h0 : forestLeafData ([] : List Node) = 0 := rfl
              rw [h0, add_zero]
            have e2 : forestLeafData heap = leafData n1 + forestLeafData r1 := by
              rw [forestLeafData_perm (popMin_perm heap n1 r1 hp1), forestLeafData_cons]
            have e3 : forestLeafData r1 = leafData n2 + forestLeafData r2 := by
              rw [forestLeafData_perm (popMin_perm r1 n2 r2 hp2), forestLeafData_cons]
            have e4 : leafData merged = leafData n1 + leafData n2 := rfl
            rw [e1, e2, e3, e4]
            abel
          · intro hall
            refine hfr ?_
            intro u hu
            rcases List.mem_append.mp hu with hu | hu
            · exact hall u (hmemr2 u hu)
            · rcases List.mem_singleton.mp hu with rfl
              have h1 := hall n1 hn1mem
              have hn2 := hall n2 hn2mem
              simp [hmerged, freqOk, h1, hn2]
          · intro hall
            refine hct ?_
            intro u hu
            rcases List.mem_append.mp hu with hu | hu
            · exact hall u (hmemr2 u hu)
            · rcases List.mem_singleton.mp hu with rfl
              have h1 := hall n1 hn1mem
              have hn2 := hall n2 hn2mem
              simp only [hmerged, countInternal, countLeaves]
              omega
          · intro _
            by_cases hr2 : r2 = []
            · subst hr2
              rw [List.nil_append, hloop_singleton] at hr
              cases hr
              rfl
            · refine hint ?_
              have : 0 < r2.length := List.length_pos.mpr hr2
              simp only [List.length_append, List.length_cons, List.length_nil]
              omega

/-- The multiset of counter entries is the leaf data of the initial
forest. -/
theorem forestLeafData_initial (freqs : List (Char × Nat)) :
    forestLeafData (freqs.map (fun p => Node.leaf p.1 p.2)) = (freqs : Multiset (Char × Nat)) := by
  induction freqs with
  | nil => rfl
  | cons p rest ih =>
    simp only [List.map_cons, forestLeafData_cons, ih, leafData]
    rfl

/-- `build_huffman_tree` on a text with a nonempty frequency map:
existence plus all structural invariants. -/
theorem build_tree_spec (text : List Char) (hne : counter text ≠ []) :
    ∃ root, build_huffman_tree text = some root ∧
      leafData root = (counter text : Multiset (Char × Nat)) ∧
      freqOk root = true ∧
      countInternal root + 1 = countLeaves root ∧
      (2 ≤ (counter text).length → root.isInternal = true) := by
  set heap := (counter text).map (fun p => Node.leaf p.1 p.2) with hheap
  have hne' : heap ≠ [] := by
    simp only [hheap, ne_eq, List.map_eq_nil_iff]
    exact hne
  have hlen : heap.length ≤ heap.length + 1 := Nat.le_succ _
  obtain ⟨root, hr, hld, hfr, hct, hint⟩ := hloop_spec heap.length heap hne' hlen
  refine ⟨root, ?_, ?_, ?_, ?_, ?_⟩
  · simp only [build_huffman_tree]
    rw [← hheap, hr]
  · rw [hld, hheap, forestLeafData_initial]
  · refine hfr ?_
    intro u hu
    rw [hheap] at hu
    obtain ⟨p, _, rfl⟩ := List.mem_map.mp hu
    rfl
  · refine hct ?_
    intro u hu
    rw [hheap] at hu
    obtain ⟨p, _, rfl⟩ := List.mem_map.mp hu
    rfl
  · intro hcard
    refine hint ?_
    rw [hheap, List.length_map]
    exact hcard

/-- C10: confirmed.  For a frequency map with at least one distinct
symbol, the builder returns a tree with exactly n leaves and n - 1
internal nodes (n the number of distinct symbols), every internal node's
frequency being the sum of its children's; strict binarity is inherent in
the `Node` type, whose internal nodes always own two children, exactly as
the loop creates them. -/
theorem C10_tree_shape (text : List Char) (hn : 1 ≤ (counter text).length) :
    ∃ root, build_huffman_tree text = some root ∧
      countLeaves root = (counter text).length ∧
      countInternal root + 1 = countLeaves root ∧
      freqOk root = true := by
  have hne : counter text ≠ [] := by
    intro h
    rw [h] at hn
    simp at hn
  obtain ⟨root, hr, hld, hfr, hct, -⟩ := build_tree_spec text hne
  refine ⟨root, hr, ?_, hct, hfr⟩
  have := card_leafData root
  rw [hld] at this
  simpa using this.symm

/-- C10 witness: the two-symbol text "ab". -/
theorem C10_tree_shape_witness :
    ∃ root, build_huffman_tree ['a', 'b'] = some root ∧
      countLeaves root = (counter ['a', 'b']).length ∧
      countInternal root + 1 = countLeaves root ∧
      freqOk root = true :=
  C10_tree_shape ['a', 'b'] (by decide)

/-! ## C1: round trip -/

theorem alistLookup_mem {α β : Type} [DecidableEq α] :
    ∀ (m : List (α × β)) (k : α) (v : β), alistLookup m k = some v → (k, v) ∈ m := by
  intro m
  induction m with
  | nil => intro k v h; cases h
  | cons p rest ih =>
    intro k v h
    obtain ⟨k0, v0⟩ := p
    simp only [alistLookup] at h
    by_cases h0 : k0 = k
    · rw [if_pos h0] at h
      rw [Option.some.injEq] at h
      rw [← h, ← h0]
      exact List.mem_cons_self _ _
    · rw [if_neg h0] at h
      exact List.mem_cons_of_mem _ (ih k v h)

theorem alistInsert_cons_pos {α β : Type} [DecidableEq α]
    (k0 : α) (v0 : β) (rest : List (α × β)) (v : β) :
    alistInsert ((k0, v0) :: rest) k0 v = (k0, v) :: rest := by
  simp [alistInsert]

theorem alistInsert_cons_neg {α β : Type} [DecidableEq α]
    {k0 k : α} (h : k0 ≠ k) (v0 : β) (rest : List (α × β)) (v : β) :
    alistInsert ((k0, v0) :: rest) k v = (k0, v0) :: alistInsert rest k v := by
  simp [alistInsert, h]

theorem mem_keys_alistInsert {α β : Type} [DecidableEq α]
    (m : List (α × β)) (k : α) (v : β) (c : α) :
    c ∈ (alistInsert m k v).map Prod.fst ↔ c ∈ m.map Prod.fst ∨ c = k := by
  induction m with
  | nil => simp [alistInsert]
  | cons p rest ih =>
    obtain ⟨k0, v0⟩ := p
    by_cases h0 : k0 = k
    · subst h0
      rw [alistInsert_cons_pos]
      simp only [List.map_cons, List.mem_cons]
      tauto
    · rw [alistInsert_cons_neg h0]
      simp only [List.map_cons, List.mem_cons, ih]
      tauto

theorem nodup_keys_alistInsert {α β : Type} [DecidableEq α]
    (m : List (α × β)) (k : α) (v : β) (h : (m.map Prod.fst).Nodup) :
    ((alistInsert m k v).map Prod.fst).Nodup := by
  induction m with
  | nil => simp [alistInsert]
  | cons p rest ih =>
    obtain ⟨k0, v0⟩ := p
    simp only [List.map_cons, List.nodup_cons] at h
    obtain ⟨hk0, hrest⟩ := h
    by_cases h0 : k0 = k
    · subst h0
      rw [alistInsert_cons_pos]
      simp only [List.map_cons, List.nodup_cons]
      exact ⟨hk0, hrest⟩
    · rw [alistInsert_cons_neg h0]
      simp only [List.map_cons, List.nodup_cons]
      refine ⟨?_, ih hrest⟩
      intro hc
      rcases (mem_keys_alistInsert rest k v k0).mp hc with hc | hc
      · exact hk0 hc
      · exact h0 hc

theorem nodup_keys_foldl_insert {α β : Type} [DecidableEq α] :
    ∀ (L : List (α × β)) (init : List (α × β)), (init.map Prod.fst).Nodup →
      ((List.foldl (fun acc q => alistInsert acc q.1 q.2) init L).map Prod.fst).Nodup := by
  intro L
  induction L with
  | nil => intro init h; exact h
  | cons q rest ih => intro init h; exact ih _ (nodup_keys_alistInsert _ _ _ h)

theorem isSome_lookup_foldl_insert {α β : Type} [DecidableEq α] :
    ∀ (L : List (α × β)) (init : List (α × β)) (k : α),
      k ∈ L.map Prod.fst ∨ (∃ v, alistLookup init k = some v) →
      ∃ v, alistLookup (List.foldl (fun acc q => alistInsert acc q.1 q.2) init L) k = some v := by
  intro L
  induction L with
  | nil =>
    intro init k h
    rcases h with h | h
    · simp at h
    · exact h
  | cons q rest ih =>
    intro init k h
    refine ih _ k ?_
    rcases h with h | ⟨v, hv⟩
    · simp only [List.map_cons, List.mem_cons] at h
      rcases h with rfl | h
      · right
        exact ⟨q.2, by rw [alistLookup_alistInsert, if_pos rfl]⟩
      · left
        exact h
    · by_cases hq : q.1 = k
      · right
        exact ⟨q.2, by rw [alistLookup_alistInsert, if_pos hq]⟩
      · right
        exact ⟨v, by rw [alistLookup_alistInsert, if_neg hq]; exact hv⟩

theorem lookup_foldl_rev_skip :
    ∀ (tbl : CodeTable) (acc : List (List Bool × Char)) (q : List Bool),
      q ∉ tbl.map Prod.snd →
      alistLookup (List.foldl (fun a p => alistInsert a p.2 p.1) acc tbl) q =
        alistLookup acc q := by
  intro tbl
  induction tbl with
  | nil => intro acc q _; rfl
  | cons p rest ih =>
    intro acc q h
    simp only [List.map_cons, List.mem_cons, not_or] at h
    obtain ⟨h1, h2⟩ := h
    rw [List.foldl_cons, ih _ q h2, alistLookup_alistInsert,
      if_neg (fun hc => h1 hc.symm)]

theorem lookup_rev_hit :
    ∀ (tbl : CodeTable) (acc : List (List Bool × Char)) (c : Char) (p : List Bool),
      (tbl.map Prod.snd).Nodup → (c, p) ∈ tbl →
      alistLookup (List.foldl (fun a q => alistInsert a q.2 q.1) acc tbl) p = some c := by
  intro tbl
  induction tbl with
  | nil => intro acc c p _ h; cases h
  | cons q rest ih =>
    intro acc c p hnd hmem
    simp only [List.map_cons, List.nodup_cons] at hnd
    obtain ⟨hq, hrest⟩ := hnd
    rcases List.mem_cons.mp hmem with heq | hmem'
    · rw [List.foldl_cons, lookup_foldl_rev_skip rest _ p (by rw [← heq] at hq; exact hq)]
      rw [← heq]
      rw [alistLookup_alistInsert, if_pos rfl]
    · rw [List.foldl_cons]
      exact ih _ c p hrest hmem'

theorem reverse_codes_hit (tbl : CodeTable) (c : Char) (p : List Bool)
    (hnd : (tbl.map Prod.snd).Nodup) (hmem : (c, p) ∈ tbl) :
    alistLookup (reverse_codes tbl) p = some c :=
  lookup_rev_hit tbl [] c p hnd hmem

theorem reverse_codes_miss (tbl : CodeTable) (q : List Bool)
    (h : q ∉ tbl.map Prod.snd) :
    alistLookup (reverse_codes tbl) q = none := by
  unfold reverse_codes
  rw [lookup_foldl_rev_skip tbl [] q h]
  rfl

theorem relPaths_ne_nil_of_internal (t : Node) (h : t.isInternal = true) :
    ∀ p ∈ relPaths t, p.2 ≠ [] := by
  cases t with
  | leaf c f => cases h
  | node f l r =>
    intro p hp
    simp only [relPaths, List.mem_append] at hp
    rcases hp with hp | hp <;> obtain ⟨q, _, rfl⟩ := List.mem_map.mp hp <;> simp

theorem mem_fst_relPaths_of_leafData (t : Node) (c : Char) (fr : Nat) :
    (c, fr) ∈ leafData t → c ∈ (relPaths t).map Prod.fst := by
  induction t with
  | leaf c0 f0 =>
    intro h
    simp only [leafData, Multiset.mem_singleton, Prod.mk.injEq] at h
    simp [relPaths, h.1]
  | node f0 l r ihl ihr =>
    intro h
    simp only [leafData, Multiset.mem_add] at h
    simp only [relPaths, List.map_append, List.mem_append, List.map_map]
    rcases h with h | h
    · left
      obtain ⟨p, hp, he⟩ := List.mem_map.mp (ihl h)
      exact List.mem_map.mpr ⟨p, hp, he⟩
    · right
      obtain ⟨p, hp, he⟩ := List.mem_map.mp (ihr h)
      exact List.mem_map.mpr ⟨p, hp, he⟩

theorem bump_cons_pos (k : Char) (n : Nat) (rest : List (Char × Nat)) :
    bump ((k, n) :: rest) k = (k, n + 1) :: rest := by
  simp [bump]

theorem bump_cons_neg {k d : Char} (h : k ≠ d) (n : Nat) (rest : List (Char × Nat)) :
    bump ((k, n) :: rest) d = (k, n) :: bump rest d := by
  simp [bump, h]

theorem mem_keys_bump (acc : List (Char × Nat)) (d c : Char) :
    c ∈ (bump acc d).map Prod.fst ↔ c ∈ acc.map Prod.fst ∨ c = d := by
  induction acc with
  | nil => simp [bump]
  | cons p rest ih =>
    obtain ⟨k, n⟩ := p
    by_cases h0 : k = d
    · subst h0
      rw [bump_cons_pos]
      simp only [List.map_cons, List.mem_cons]
      tauto
    · rw [bump_cons_neg h0]
      simp only [List.map_cons, List.mem_cons, ih]
      tauto

theorem mem_keys_counter_aux :
    ∀ (text : List Char) (acc : List (Char × Nat)) (c : Char),
      c ∈ (text.foldl bump acc).map Prod.fst ↔ c ∈ acc.map Prod.fst ∨ c ∈ text := by
  intro text
  induction text with
  | nil =>
    intro acc c
    simp
  | cons d rest ih =>
    intro acc c
    simp only [List.foldl_cons, ih, mem_keys_bump, List.mem_cons]
    tauto

theorem exists_counter_entry (text : List Char) (c : Char) (h : c ∈ text) :
    ∃ fr, (c, fr) ∈ counter text := by
  have hk : c ∈ (counter text).map Prod.fst := by
    unfold counter
    rw [mem_keys_counter_aux]
    exact Or.inr h
  obtain ⟨p, hp, he⟩ := List.mem_map.mp hk
  refine ⟨p.2, ?_⟩
  rw [← he]
  exact hp

/-- Scanning the bits of one codeword of the table, the accumulator walks
through its proper prefixes without matching, matches exactly at the end,
emits the symbol, and resets. -/
theorem scanBits_code (rev : List (List Bool × Char)) (code : List Bool) (c : Char)
    (hfull : alistLookup rev code = some c)
    (hprop : ∀ q, q <+: code → q ≠ [] → q ≠ code → alistLookup rev q = none) :
    ∀ (v u rest : List Bool) (out : List Char), code = u ++ v → v ≠ [] →
      scanBits rev (v ++ rest) u out = scanBits rev rest [] (out ++ [c]) := by
  intro v
  induction v with
  | nil =>
    intro u rest out _ hv
    exact absurd rfl hv
  | cons b v' ih =>
    intro u rest out hcode hv
    by_cases hv' : v' = []
    · subst hv'
      have hu : u ++ [b] = code := by
        rw [hcode]
      show scanBits rev (b :: rest) u out = scanBits rev rest [] (out ++ [c])
      simp only [scanBits, hu, hfull]
    · have hlt : (u ++ [b]).length < code.length := by
        rw [hcode]
        simp only [List.length_append, List.length_cons, List.length_nil]
        have : 0 < v'.length := List.length_pos.mpr hv'
        omega
      have hne : u ++ [b] ≠ code := by
        intro h
        rw [h] at hlt
        omega
      have hpre : (u ++ [b]) <+: code := by
        rw [hcode]
        refine ⟨v', ?_⟩
        simp
      have hnomatch : alistLookup rev (u ++ [b]) = none :=
        hprop _ hpre (by simp) hne
      show scanBits rev (b :: (v' ++ rest)) u out = scanBits rev rest [] (out ++ [c])
      simp only [scanBits, hnomatch]
      refine ih (u ++ [b]) rest out ?_ hv'
      rw [hcode]
      simp

/-- Scanning the concatenation of the codewords of a message over a
prefix-free table recovers the message exactly, with empty leftover. -/
theorem scanBits_concat (rev : List (List Bool × Char)) :
    ∀ (text : List Char) (tbl : CodeTable) (bits : List Bool) (out : List Char),
      encode_text (some tbl) text = some bits →
      (∀ c ∈ text, ∃ p, alistLookup tbl c = some p ∧ p ≠ [] ∧
        alistLookup rev p = some c ∧
        (∀ q, q <+: p → q ≠ [] → q ≠ p → alistLookup rev q = none)) →
      scanBits rev bits [] out = (out ++ text, []) := by
  intro text
  induction text with
  | nil =>
    intro tbl bits out henc _
    simp only [encode_text, Option.some.injEq] at henc
    rw [← henc]
    simp [scanBits]
  | cons c rest ih =>
    intro tbl bits out henc hprops
    obtain ⟨p, hp, hpne, hrev, hprop⟩ := hprops c (List.mem_cons_self _ _)
    simp only [encode_text, hp] at henc
    cases hrest : encode_text (some tbl) rest with
    | none =>
      rw [hrest] at henc
      cases henc
    | some rbits =>
      rw [hrest] at henc
      rw [Option.some.injEq] at henc
      rw [← henc]
      rw [scanBits_code rev p c hrev hprop p [] rbits out (by simp) hpne]
      rw [ih tbl rbits (out ++ [c]) hrest
        (fun c' hc' => hprops c' (List.mem_cons_of_mem _ hc'))]
      simp

/-- The values of the emitted code table are distinct bitstrings. -/
theorem compress_table_snd_nodup (text : List Char) (bytes : List Nat)
    (tbl : CodeTable) (t : Node)
    (hcomp : compress_file text = some (bytes, some tbl))
    (hroot : build_huffman_tree text = some t) :
    (tbl.map Prod.snd).Nodup := by
  obtain ⟨t', hroot', htbl⟩ := compress_table_eq text bytes tbl hcomp
  have hkeys : (tbl.map Prod.fst).Nodup := by
    rw [htbl, build_codes_aux_eq]
    exact nodup_keys_foldl_insert _ [] (by simp)
  have hpair1 : tbl.Pairwise (fun p q : Char × List Bool => p.1 ≠ q.1) :=
    List.pairwise_map.mp hkeys
  have hpair2 : tbl.Pairwise (fun p q : Char × List Bool => p.2 ≠ q.2) := by
    refine hpair1.imp_of_mem ?_
    intro p q hpm hqm hne he2
    have hp' := mem_compress_table text bytes tbl t p hcomp hroot hpm
    have hq' := mem_compress_table text bytes tbl t q hcomp hroot hqm
    have hd := (pairwise_relPaths t).forall pathsDisjoint_symm hp' hq'
      (fun he => hne (congrArg Prod.fst he))
    exact hd.1 (he2 ▸ List.prefix_refl _)
  exact List.pairwise_map.mpr hpair2

/-- Every character of the text has a code in the emitted table. -/
theorem compress_table_covers (text : List Char) (bytes : List Nat)
    (tbl : CodeTable) (t : Node)
    (hcomp : compress_file text = some (bytes, some tbl))
    (hroot : build_huffman_tree text = some t)
    (hld : leafData t = (counter text : Multiset (Char × Nat)))
    (c : Char) (hc : c ∈ text) :
    ∃ p, alistLookup tbl c = some p := by
  obtain ⟨fr, hfr⟩ := exists_counter_entry text c hc
  have hmem : (c, fr) ∈ leafData t := by
    rw [hld]
    exact Multiset.mem_coe.mpr hfr
  have hkey : c ∈ (relPaths t).map Prod.fst :=
    mem_fst_relPaths_of_leafData t c fr hmem
  obtain ⟨t', hroot', htbl⟩ := compress_table_eq text bytes tbl hcomp
  rw [hroot] at hroot'
  rw [Option.some.injEq] at hroot'
  subst hroot'
  rw [htbl, build_codes_aux_eq]
  refine isSome_lookup_foldl_insert _ [] c (Or.inl ?_)
  obtain ⟨p, hp, he⟩ := List.mem_map.mp hkey
  exact List.mem_map.mpr ⟨(p.1, [] ++ p.2), List.mem_map.mpr ⟨p, hp, rfl⟩, he⟩

/-- C1 amended: for every text with at least two distinct symbols whose
concatenated code-bit length is a multiple of eight (so the encoder pads
nothing), decompressing the compressed package yields the text exactly.
The claim's fallback fails only on single-symbol texts, whose sole code is
the empty bitstring. -/
theorem C1_roundtrip (text : List Char) (bytes : List Nat) (tbl : CodeTable)
    (bits : List Bool)
    (hdistinct : 2 ≤ (counter text).length)
    (hcomp : compress_file text = some (bytes, some tbl))
    (henc : encode_text (some tbl) text = some bits)
    (hmod : bits.length % 8 = 0) :
    decompress_file bytes (some tbl) = some text := by
  have hcne : counter text ≠ [] := by
    intro h
    rw [h] at hdistinct
    simp at hdistinct
  obtain ⟨root, hroot, hld, -, -, hint⟩ := build_tree_spec text hcne
  have hinternal : root.isInternal = true := hint hdistinct
  obtain ⟨t', hroot', htbl⟩ := compress_table_eq text bytes tbl hcomp
  rw [hroot] at hroot'
  rw [Option.some.injEq] at hroot'
  subst hroot'
  -- the bytes are the packed, unpadded bits
  have hbytes : bytes = pack (padBits bits) := by
    have hc2 := hcomp
    rw [compress_file_eq] at hc2
    have hbc : build_codes (build_huffman_tree text) = some tbl := by
      rw [hroot]
      rw [htbl]
      rfl
    rw [hbc, henc] at hc2
    rw [Option.some.injEq, Prod.mk.injEq] at hc2
    exact hc2.1.symm
  have hpad : padBits bits = bits := by
    unfold padBits
    rw [hmod]
    simp
  have hbits : bytesBits bytes = bits := by
    rw [hbytes, hpad]
    exact bytesBits_pack bits hmod
  -- scan the bit stream
  have hnd : (tbl.map Prod.snd).Nodup :=
    compress_table_snd_nodup text bytes tbl root hcomp hroot
  have hprops : ∀ c ∈ text, ∃ p, alistLookup tbl c = some p ∧ p ≠ [] ∧
      alistLookup (reverse_codes tbl) p = some c ∧
      (∀ q, q <+: p → q ≠ [] → q ≠ p → alistLookup (reverse_codes tbl) q = none) := by
    intro c hc
    obtain ⟨p, hp⟩ := compress_table_covers text bytes tbl root hcomp hroot hld c hc
    have hmem : (c, p) ∈ tbl := alistLookup_mem tbl c p hp
    have hrel : (c, p) ∈ relPaths root :=
      mem_compress_table text bytes tbl root (c, p) hcomp hroot hmem
    refine ⟨p, hp, relPaths_ne_nil_of_internal root hinternal (c, p) hrel, ?_, ?_⟩
    · exact reverse_codes_hit tbl c p hnd hmem
    · intro q hqpre hqne hqnep
      refine reverse_codes_miss tbl q ?_
      intro hq
      obtain ⟨pr, hq'mem, he⟩ := List.mem_map.mp hq
      have hrel' : pr ∈ relPaths root :=
        mem_compress_table text bytes tbl root pr hcomp hroot hq'mem
      by_cases hsame : pr = (c, p)
      · rw [hsame] at he
        exact hqnep he.symm
      · have hd := (pairwise_relPaths root).forall pathsDisjoint_symm hrel' hrel hsame
        refine hd.1 ?_
        rw [he]
        exact hqpre
  have hscan := scanBits_concat (reverse_codes tbl) text tbl bits [] henc hprops
  show some (scanBits (reverse_codes tbl) (bytesBits bytes) [] []).1 = some text
  rw [hbits, hscan]
  simp

/-- C1 witness: the concrete text "abababab", whose eight code bits fill
one byte exactly. -/
theorem C1_roundtrip_witness :
    decompress_file [85] (some [('a', [false]), ('b', [true])]) =
      some ['a', 'b', 'a', 'b', 'a', 'b', 'a', 'b'] :=
  C1_roundtrip ['a', 'b', 'a', 'b', 'a', 'b', 'a', 'b'] [85]
    [('a', [false]), ('b', [true])]
    [false, true, false, true, false, true, false, true]
    (by decide) (by decide) (by decide) (by decide)

/-- C1: the claim as stated fails on the code.  The single-symbol text
"aa" has concatenated code-bit length zero, a multiple of eight, yet the
package decompresses to the empty text, not "aa". -/
theorem C1_counterexample :
    compress_file ['a', 'a'] = some ([], some [('a', [])]) ∧
    encode_text (some [('a', [])]) ['a', 'a'] = some [] ∧
    (List.length ([] : List Bool)) % 8 = 0 ∧
    decompress_file [] (some [('a', [])]) = some [] ∧
    some ([] : List Char) ≠ some ['a', 'a'] :=
  ⟨rfl, rfl, rfl, rfl, by decide⟩

/-! ## C5: optimality of the built tree

The competitor class of the claim, "all prefix-code trees for that
distribution", is the class of strict binary trees whose leaf-weight
multiset is the frequency distribution; only the shape and the leaf
weights matter for the weighted path length, so competitors are modelled
by `STree`, code trees with bare `Nat` leaf weights. -/

/-- A code-shape tree: a strict binary tree carrying only leaf weights. -/
inductive STree where
  | leaf (w : Nat)
  | node (l r : STree)
deriving DecidableEq, Repr

/-- Total leaf weight. -/
def STree.wt : STree → Nat
  | .leaf w => w
  | .node l r => l.wt + r.wt

/-- Weighted path length: every internal node contributes the total
weight below it, which sums to weight times depth over the leaves. -/
def STree.cost : STree → Nat
  | .leaf _ => 0
  | .node l r => l.cost + r.cost + l.wt + r.wt

/-- The multiset of (weight, depth) pairs of the leaves. -/
def STree.dm : STree → Multiset (Nat × Nat)
  | .leaf w => {(w, 0)}
  | .node l r => (l.dm + r.dm).map (fun p => (p.1, p.2 + 1))

/-- The multiset of leaf weights. -/
def STree.wts (t : STree) : Multiset Nat := t.dm.map Prod.fst

/-- Depth of the deepest leaf. -/
def STree.maxd : STree → Nat
  | .leaf _ => 0
  | .node l r => max l.maxd r.maxd + 1

/-- Erase a Huffman `Node` to its shape and leaf frequencies. -/
def erase : Node → STree
  | .leaf _ w => .leaf w
  | .node _ l r => .node (erase l) (erase r)

theorem STree.dm_card_pos : ∀ t : STree, 0 < t.dm.card := by
  intro t
  induction t with
  | leaf w => simp [STree.dm]
  | node l r ihl ihr =>
    simp only [STree.dm, Multiset.card_map, Multiset.card_add]
    omega

theorem STree.dm_ne_zero (t : STree) : t.dm ≠ 0 :=
  Multiset.card_pos.mp (STree.dm_card_pos t)

theorem STree.wt_eq_sum_wts (t : STree) : t.wt = t.wts.sum := by
  induction t with
  | leaf w => simp [STree.wt, STree.wts, STree.dm]
  | node l r ihl ihr =>
    simp only [STree.wt, STree.wts, STree.dm, Multiset.map_map, Function.comp,
      Multiset.map_add, Multiset.sum_add] at *
    rw [ihl, ihr]

/-- The cost is the sum of weight times depth over the leaves: the
weighted path length in the sense of the spec. -/
theorem STree.cost_eq_dm (t : STree) :
    t.cost = (t.dm.map fun p => p.1 * p.2).sum := by
  induction t with
  | leaf w => simp [STree.cost, STree.dm]
  | node l r ihl ihr =>
    simp only [STree.cost, STree.dm, Multiset.map_map, Function.comp,
      Multiset.map_add, Multiset.sum_add]
    rw [ihl, ihr, wt_eq_sum_wts l, wt_eq_sum_wts r]
    have hgen : ∀ s : Multiset (Nat × Nat),
        (s.map fun p => p.1 * (p.2 + 1)).sum =
          (s.map fun p => p.1 * p.2).sum + (s.map Prod.fst).sum := by
      intro s
      have : (s.map fun p : Nat × Nat => p.1 * (p.2 + 1)) =
          s.map fun p : Nat × Nat => p.1 * p.2 + p.1 := by
        refine Multiset.map_congr rfl ?_
        intro p _
        ring
      rw [this, Multiset.sum_map_add]
    rw [hgen, hgen]
    unfold STree.wts
    ring

theorem STree.depth_le_maxd : ∀ (t : STree) (p : Nat × Nat), p ∈ t.dm → p.2 ≤ t.maxd := by
  intro t
  induction t with
  | leaf w =>
    intro p hp
    simp only [STree.dm, Multiset.mem_singleton] at hp
    rw [hp]
    exact Nat.le_refl _
  | node l r ihl ihr =>
    intro p hp
    simp only [STree.dm, Multiset.mem_map, Multiset.mem_add] at hp
    obtain ⟨q, hq, rfl⟩ := hp
    simp only [STree.maxd]
    rcases hq with hq | hq
    · have := ihl q hq
      omega
    · have := ihr q hq
      omega

theorem STree.maxd_pos (l r : STree) : 1 ≤ (STree.node l r).maxd := by
  simp [STree.maxd]

/-- Splitting a multiset along a splitting of its image. -/
theorem multiset_map_eq_add {α β : Type} (f : α → β) :
    ∀ (t1 : Multiset β) (s : Multiset α) (t2 : Multiset β), s.map f = t1 + t2 →
      ∃ s1 s2, s = s1 + s2 ∧ s1.map f = t1 ∧ s2.map f = t2 := by
  intro t1
  induction t1 using Multiset.induction_on with
  | empty =>
    intro s t2 h
    refine ⟨0, s, ?_, ?_, ?_⟩
    · simp
    · simp
    · simpa using h
  | cons b t1 ih =>
    intro s t2 h
    have hb : b ∈ s.map f := by
      rw [h]
      simp
    obtain ⟨a, ha, hfa⟩ := Multiset.mem_map.mp hb
    obtain ⟨s', hs'⟩ := Multiset.exists_cons_of_mem ha
    subst hs'
    rw [Multiset.map_cons, hfa, Multiset.cons_add, Multiset.cons_inj_right] at h
    obtain ⟨s1, s2, hsum, h1, h2⟩ := ih s' t2 h
    refine ⟨a ::ₘ s1, s2, ?_, ?_, h2⟩
    · rw [hsum, Multiset.cons_add]
    · rw [Multiset.map_cons, hfa, h1]

/-- A tree shape can carry any weights: any multiset with the same depth
multiset as some tree is the depth multiset of a tree. -/
theorem realize_shape : ∀ (t : STree) (S : Multiset (Nat × Nat)),
    S.map Prod.snd = t.dm.map Prod.snd → ∃ u : STree, u.dm = S := by
  intro t
  induction t with
  | leaf w =>
    intro S h
    have hcard : S.card = 1 := by
      have := congrArg Multiset.card h
      simpa [STree.dm] using this
    obtain ⟨p, hp⟩ := Multiset.card_eq_one.mp hcard
    subst hp
    refine ⟨STree.leaf p.1, ?_⟩
    simp only [STree.dm]
    have hsnd : p.2 = 0 := by
      simpa [STree.dm] using h
    have : p = (p.1, 0) := by
      rw [← hsnd]
    rw [← this]
  | node l r ihl ihr =>
    intro S h
    -- every depth in S is positive
    have hpos : ∀ p ∈ S, 1 ≤ p.2 := by
      intro p hp
      have hmem : p.2 ∈ S.map Prod.snd := Multiset.mem_map.mpr ⟨p, hp, rfl⟩
      rw [h] at hmem
      simp only [STree.dm, Multiset.map_map, Function.comp, Multiset.mem_map] at hmem
      obtain ⟨q, _, hq⟩ := hmem
      omega
    -- peel one level off the depths of S
    set S' := S.map (fun p => (p.1, p.2 - 1)) with hS'
    have hSrt : S'.map (fun p => (p.1, p.2 + 1)) = S := by
      rw [hS', Multiset.map_map]
      have : ((fun p : Nat × Nat => (p.1, p.2 + 1)) ∘ fun p : Nat × Nat => (p.1, p.2 - 1)) =
          fun p : Nat × Nat => (p.1, p.2 - 1 + 1) := rfl
      rw [this]
      refine Eq.trans (Multiset.map_congr rfl ?_) (Multiset.map_id S)
      intro p hp
      have := hpos p hp
      have h2 : p.2 - 1 + 1 = p.2 := by omega
      rw [h2]
      rfl
    have hsnd1 : S.map Prod.snd = (S'.map Prod.snd).map (fun d => d + 1) := by
      rw [hS', Multiset.map_map, Multiset.map_map]
      refine Multiset.map_congr rfl ?_
      intro p hp
      have := hpos p hp
      show p.2 = p.2 - 1 + 1
      omega
    have hsnd2 : (STree.node l r).dm.map Prod.snd =
        ((l.dm + r.dm).map Prod.snd).map (fun d => d + 1) := by
      simp only [STree.dm, Multiset.map_map]
      rfl
    have hinj : Function.Injective (fun d : Nat => d + 1) := by
      intro a b hab
      have h' : a + 1 = b + 1 := hab
      omega
    have hsplit : S'.map Prod.snd = l.dm.map Prod.snd + r.dm.map Prod.snd := by
      have h0 := h
      rw [hsnd1, hsnd2] at h0
      have h2 := Multiset.map_injective hinj h0
      rw [h2, Multiset.map_add]
    obtain ⟨SL, SR, hsum, hL, hR⟩ := multiset_map_eq_add Prod.snd
      (l.dm.map Prod.snd) S' (r.dm.map Prod.snd) hsplit
    obtain ⟨ul, hul⟩ := ihl SL hL
    obtain ⟨ur, hur⟩ := ihr SR hR
    refine ⟨STree.node ul ur, ?_⟩
    show (ul.dm + ur.dm).map (fun p => (p.1, p.2 + 1)) = S
    rw [hul, hur, ← hsum, hSrt]

theorem maxd_eq_zero_leaf : ∀ t : STree, t.maxd = 0 → ∃ w, t = STree.leaf w := by
  intro t
  cases t with
  | leaf w => intro _; exact ⟨w, rfl⟩
  | node l r => intro h; simp [STree.maxd] at h

/-- At the maximum depth of an internal tree sit two sibling leaves;
moreover, contracting that sibling pair into one leaf (of any weight)
realizes the remaining slots one level up. -/
theorem contract_max : ∀ t : STree, ∀ l r : STree, t = STree.node l r →
    ∃ (w1 w2 : Nat) (M : Multiset (Nat × Nat)),
      t.dm = (w1, t.maxd) ::ₘ (w2, t.maxd) ::ₘ M ∧
      ∀ u v : Nat, ∃ tc : STree, tc.dm = (u + v, t.maxd - 1) ::ₘ M := by
  intro t
  induction t with
  | leaf w =>
    intro l r h
    exact absurd h (by simp)
  | node l0 r0 ihl ihr =>
    intro l r _
    by_cases hcmp : r0.maxd ≤ l0.maxd
    · cases hl0 : l0 with
      | leaf wl =>
        subst hl0
        have hr0 : r0.maxd = 0 := by
          simpa [STree.maxd] using hcmp
        obtain ⟨wr, hwr⟩ := maxd_eq_zero_leaf r0 hr0
        subst hwr
        refine ⟨wl, wr, 0, ?_, ?_⟩
        · show ((STree.leaf wl).dm + (STree.leaf wr).dm).map (fun p => (p.1, p.2 + 1)) =
            (wl, (STree.node (STree.leaf wl) (STree.leaf wr)).maxd) ::ₘ
            (wr, (STree.node (STree.leaf wl) (STree.leaf wr)).maxd) ::ₘ 0
          simp [STree.dm, STree.maxd, Multiset.singleton_add]
        · intro u v
          refine ⟨STree.leaf (u + v), ?_⟩
          simp [STree.dm, STree.maxd]
      | node l1 l2 =>
        subst hl0
        obtain ⟨w1, w2, M, hdm, hall⟩ := ihl l1 l2 rfl
        have hd1 : 1 ≤ (STree.node l1 l2).maxd := STree.maxd_pos l1 l2
        have hmax : (STree.node (STree.node l1 l2) r0).maxd =
            (STree.node l1 l2).maxd + 1 := by
          show max (STree.node l1 l2).maxd r0.maxd + 1 = (STree.node l1 l2).maxd + 1
          rw [Nat.max_eq_left hcmp]
        refine ⟨w1, w2, (M + r0.dm).map (fun p => (p.1, p.2 + 1)), ?_, ?_⟩
        · show ((STree.node l1 l2).dm + r0.dm).map (fun p => (p.1, p.2 + 1)) = _
          rw [hdm, Multiset.cons_add, Multiset.cons_add, Multiset.map_cons,
            Multiset.map_cons, hmax]
        · intro u v
          obtain ⟨tc, htc⟩ := hall u v
          refine ⟨STree.node tc r0, ?_⟩
          show (tc.dm + r0.dm).map (fun p => (p.1, p.2 + 1)) = _
          rw [htc, Multiset.cons_add, Multiset.map_cons, hmax]
          have he : (STree.node l1 l2).maxd - 1 + 1 =
              (STree.node l1 l2).maxd + 1 - 1 := by
            omega
          rw [he]
    · cases hr0 : r0 with
      | leaf wr =>
        subst hr0
        exact absurd (Nat.zero_le _) hcmp
      | node r1 r2 =>
        subst hr0
        obtain ⟨w1, w2, M, hdm, hall⟩ := ihr r1 r2 rfl
        have hd1 : 1 ≤ (STree.node r1 r2).maxd := STree.maxd_pos r1 r2
        have hmax : (STree.node l0 (STree.node r1 r2)).maxd =
            (STree.node r1 r2).maxd + 1 := by
          show max l0.maxd (STree.node r1 r2).maxd + 1 = (STree.node r1 r2).maxd + 1
          rw [Nat.max_eq_right (Nat.le_of_lt (Nat.lt_of_not_le hcmp))]
        refine ⟨w1, w2, (l0.dm + M).map (fun p => (p.1, p.2 + 1)), ?_, ?_⟩
        · show (l0.dm + (STree.node r1 r2).dm).map (fun p => (p.1, p.2 + 1)) = _
          rw [hdm, Multiset.add_cons, Multiset.add_cons, Multiset.map_cons,
            Multiset.map_cons, hmax]
        · intro u v
          obtain ⟨tc, htc⟩ := hall u v
          refine ⟨STree.node l0 tc, ?_⟩
          show (l0.dm + tc.dm).map (fun p => (p.1, p.2 + 1)) = _
          rw [htc, Multiset.add_cons, Multiset.map_cons, hmax]
          have he : (STree.node r1 r2).maxd - 1 + 1 =
              (STree.node r1 r2).maxd + 1 - 1 := by
            omega
          rw [he]

/-- Exchanging a lighter weight at a shallower slot with a heavier weight
at a deeper slot does not increase the weighted sum. -/
theorem swap_mul_le {x y δ d : Nat} (hxy : x ≤ y) (hdd : δ ≤ d) :
    x * d + y * δ ≤ y * d + x * δ := by
  obtain ⟨k, rfl⟩ := Nat.exists_eq_add_of_le hdd
  obtain ⟨j, rfl⟩ := Nat.exists_eq_add_of_le hxy
  nlinarith [Nat.zero_le (j * k)]

/-- Exchange when the global minimum `wa` already sits at the first
max-depth slot: move `wb` there too, pushing the displaced weight to
`wb`'s old slot. -/
theorem exchange_caseA (wa wb d : Nat) (Wr : Multiset Nat) (w2 : Nat)
    (M : Multiset (Nat × Nat))
    (heq : w2 ::ₘ M.map Prod.fst = wb ::ₘ Wr)
    (hd : ∀ p ∈ M, p.2 ≤ d)
    (hminb : ∀ w ∈ Wr, wb ≤ w) :
    ∃ M' : Multiset (Nat × Nat), M'.map Prod.snd = M.map Prod.snd ∧
      M'.map Prod.fst = Wr ∧
      (wa + wb) * d + (M'.map fun p => p.1 * p.2).sum ≤
        wa * d + w2 * d + (M.map fun p => p.1 * p.2).sum := by
  by_cases hbw2 : wb = w2
  · subst hbw2
    have hM : M.map Prod.fst = Wr := (Multiset.cons_inj_right _).mp heq
    refine ⟨M, rfl, hM, ?_⟩
    have hexp : (wa + wb) * d = wa * d + wb * d := by ring
    omega
  · have hbin : wb ∈ M.map Prod.fst := by
      have h0 : wb ∈ w2 ::ₘ M.map Prod.fst := by
        rw [heq]
        exact Multiset.mem_cons_self _ _
      rcases Multiset.mem_cons.mp h0 with h | h
      · exact absurd h hbw2
      · exact h
    obtain ⟨p, hpM, hp1⟩ := Multiset.mem_map.mp hbin
    obtain ⟨pw, pδ⟩ := p
    have hpw : wb = pw := hp1.symm
    subst hpw
    obtain ⟨M0, hM0⟩ := Multiset.exists_cons_of_mem hpM
    subst hM0
    have heq2 : w2 ::ₘ M0.map Prod.fst = Wr := by
      simp only [Multiset.map_cons] at heq
      rw [Multiset.cons_swap] at heq
      exact (Multiset.cons_inj_right _).mp heq
    have hw2Wr : w2 ∈ Wr := by
      rw [← heq2]
      exact Multiset.mem_cons_self _ _
    have hδd : pδ ≤ d := hd (wb, pδ) (Multiset.mem_cons_self _ _)
    refine ⟨(w2, pδ) ::ₘ M0, ?_, ?_, ?_⟩
    · rw [Multiset.map_cons, Multiset.map_cons]
    · rw [Multiset.map_cons]
      exact heq2
    · simp only [Multiset.map_cons, Multiset.sum_cons]
      have h1 : wb ≤ w2 := hminb w2 hw2Wr
      have hsw := swap_mul_le h1 hδd
      have hexp : (wa + wb) * d = wa * d + wb * d := by ring
      linarith

/-- The multiset core of the exchange argument: two slots at maximal depth
`d` can be given the two minimal weights `wa`, `wb`, rearranging the other
weights over the remaining slots without increasing the weighted sum. -/
theorem exchange_core (wa wb d : Nat) (Wr : Multiset Nat) (w1 w2 : Nat)
    (M : Multiset (Nat × Nat))
    (heq : w1 ::ₘ w2 ::ₘ M.map Prod.fst = wa ::ₘ wb ::ₘ Wr)
    (hd : ∀ p ∈ M, p.2 ≤ d)
    (hmina : ∀ w ∈ Wr, wa ≤ w) (hminb : ∀ w ∈ Wr, wb ≤ w) :
    ∃ M' : Multiset (Nat × Nat), M'.map Prod.snd = M.map Prod.snd ∧
      M'.map Prod.fst = Wr ∧
      (wa + wb) * d + (M'.map fun p => p.1 * p.2).sum ≤
        w1 * d + w2 * d + (M.map fun p => p.1 * p.2).sum := by
  by_cases ha1 : wa = w1
  · subst ha1
    have heq2 : w2 ::ₘ M.map Prod.fst = wb ::ₘ Wr :=
      (Multiset.cons_inj_right _).mp heq
    exact exchange_caseA wa wb d Wr w2 M heq2 hd hminb
  · by_cases ha2 : wa = w2
    · subst ha2
      have heq' : wa ::ₘ w1 ::ₘ M.map Prod.fst = wa ::ₘ wb ::ₘ Wr := by
        rw [Multiset.cons_swap]
        exact heq
      have heq2 : w1 ::ₘ M.map Prod.fst = wb ::ₘ Wr :=
        (Multiset.cons_inj_right _).mp heq'
      obtain ⟨M', h1, h2, h3⟩ := exchange_caseA wa wb d Wr w1 M heq2 hd hminb
      refine ⟨M', h1, h2, ?_⟩
      linarith
    · have hain : wa ∈ M.map Prod.fst := by
        have h0 : wa ∈ w1 ::ₘ w2 ::ₘ M.map Prod.fst := by
          rw [heq]
          exact Multiset.mem_cons_self _ _
        rcases Multiset.mem_cons.mp h0 with h | h
        · exact absurd h ha1
        · rcases Multiset.mem_cons.mp h with h | h
          · exact absurd h ha2
          · exact h
      obtain ⟨p, hpM, hp1⟩ := Multiset.mem_map.mp hain
      obtain ⟨pw, pδa⟩ := p
      have hpw : wa = pw := hp1.symm
      subst hpw
      obtain ⟨M1, hM1⟩ := Multiset.exists_cons_of_mem hpM
      subst hM1
      have hδa : pδa ≤ d := hd (wa, pδa) (Multiset.mem_cons_self _ _)
      have hdM1 : ∀ p ∈ M1, p.2 ≤ d := fun p hp => hd p (Multiset.mem_cons_of_mem hp)
      have heq2 : w1 ::ₘ w2 ::ₘ M1.map Prod.fst = wb ::ₘ Wr := by
        simp only [Multiset.map_cons] at heq
        have hswap : w1 ::ₘ w2 ::ₘ wa ::ₘ M1.map Prod.fst =
            wa ::ₘ w1 ::ₘ w2 ::ₘ M1.map Prod.fst := by
          rw [Multiset.cons_swap w2 wa, Multiset.cons_swap w1 wa]
        rw [hswap] at heq
        exact (Multiset.cons_inj_right _).mp heq
      by_cases hb1 : wb = w1
      · subst hb1
        have heq3 : w2 ::ₘ M1.map Prod.fst = Wr :=
          (Multiset.cons_inj_right _).mp heq2
        have hw2 : w2 ∈ Wr := by
          rw [← heq3]
          exact Multiset.mem_cons_self _ _
        refine ⟨(w2, pδa) ::ₘ M1, ?_, ?_, ?_⟩
        · rw [Multiset.map_cons, Multiset.map_cons]
        · rw [Multiset.map_cons]
          exact heq3
        · simp only [Multiset.map_cons, Multiset.sum_cons]
          have h1 : wa ≤ w2 := hmina w2 hw2
          have hsw := swap_mul_le h1 hδa
          have hexp : (wa + wb) * d = wa * d + wb * d := by ring
          linarith
      · by_cases hb2 : wb = w2
        · subst hb2
          have heq' : wb ::ₘ w1 ::ₘ M1.map Prod.fst = wb ::ₘ Wr := by
            rw [Multiset.cons_swap]
            exact heq2
          have heq3 : w1 ::ₘ M1.map Prod.fst = Wr :=
            (Multiset.cons_inj_right _).mp heq'
          have hw1 : w1 ∈ Wr := by
            rw [← heq3]
            exact Multiset.mem_cons_self _ _
          refine ⟨(w1, pδa) ::ₘ M1, ?_, ?_, ?_⟩
          · rw [Multiset.map_cons, Multiset.map_cons]
          · rw [Multiset.map_cons]
            exact heq3
          · simp only [Multiset.map_cons, Multiset.sum_cons]
            have h1 : wa ≤ w1 := hmina w1 hw1
            have hsw := swap_mul_le h1 hδa
            have hexp : (wa + wb) * d = wa * d + wb * d := by ring
            linarith
        · have hbin : wb ∈ M1.map Prod.fst := by
            have h0 : wb ∈ w1 ::ₘ w2 ::ₘ M1.map Prod.fst := by
              rw [heq2]
              exact Multiset.mem_cons_self _ _
            rcases Multiset.mem_cons.mp h0 with h | h
            · exact absurd h hb1
            · rcases Multiset.mem_cons.mp h with h | h
              · exact absurd h hb2
              · exact h
          obtain ⟨q, hqM, hq1⟩ := Multiset.mem_map.mp hbin
          obtain ⟨qw, pδb⟩ := q
          have hqw : wb = qw := hq1.symm
          subst hqw
          obtain ⟨M2, hM2⟩ := Multiset.exists_cons_of_mem hqM
          subst hM2
          have hδb : pδb ≤ d := hdM1 (wb, pδb) (Multiset.mem_cons_self _ _)
          have heq3 : w1 ::ₘ w2 ::ₘ M2.map Prod.fst = Wr := by
            simp only [Multiset.map_cons] at heq2
            have hswap : w1 ::ₘ w2 ::ₘ wb ::ₘ M2.map Prod.fst =
                wb ::ₘ w1 ::ₘ w2 ::ₘ M2.map Prod.fst := by
              rw [Multiset.cons_swap w2 wb, Multiset.cons_swap w1 wb]
            rw [hswap] at heq2
            exact (Multiset.cons_inj_right _).mp heq2
          have hw1 : w1 ∈ Wr := by
            rw [← heq3]
            exact Multiset.mem_cons_self _ _
          have hw2 : w2 ∈ Wr := by
            rw [← heq3]
            exact Multiset.mem_cons.mpr (Or.inr (Multiset.mem_cons_self _ _))
          refine ⟨(w1, pδa) ::ₘ (w2, pδb) ::ₘ M2, ?_, ?_, ?_⟩
          · simp only [Multiset.map_cons]
          · simp only [Multiset.map_cons]
            exact heq3
          · simp only [Multiset.map_cons, Multiset.sum_cons]
            have h1 : wa ≤ w1 := hmina w1 hw1
            have h2 : wb ≤ w2 := hminb w2 hw2
            have hswa := swap_mul_le h1 hδa
            have hswb := swap_mul_le h2 hδb
            have hexp : (wa + wb) * d = wa * d + wb * d := by ring
            linarith

/-- Exchange on trees: in any code tree containing the two minimal
weights, those two can be merged into a sibling pair (at maximal depth),
giving a tree over the merged distribution whose cost plus `wa + wb` is no
larger. -/
theorem exchange_step (T : STree) (wa wb : Nat) (Wr : Multiset Nat)
    (hwts : T.wts = wa ::ₘ wb ::ₘ Wr)
    (hmina : ∀ w ∈ Wr, wa ≤ w) (hminb : ∀ w ∈ Wr, wb ≤ w) :
    ∃ Tc : STree, Tc.wts = (wa + wb) ::ₘ Wr ∧ Tc.cost + wa + wb ≤ T.cost := by
  cases T with
  | leaf w =>
    exfalso
    have h := congrArg Multiset.card hwts
    simp [STree.wts, STree.dm] at h
  | node l r =>
    obtain ⟨w1, w2, M, hdm, hall⟩ := contract_max (STree.node l r) l r rfl
    have hw : w1 ::ₘ w2 ::ₘ M.map Prod.fst = wa ::ₘ wb ::ₘ Wr := by
      have h0 : (STree.node l r).wts = w1 ::ₘ w2 ::ₘ M.map Prod.fst := by
        unfold STree.wts
        rw [hdm]
        simp only [Multiset.map_cons]
      rw [← h0, hwts]
    have hdbound : ∀ p ∈ M, p.2 ≤ (STree.node l r).maxd := by
      intro p hp
      refine STree.depth_le_maxd (STree.node l r) p ?_
      rw [hdm]
      exact Multiset.mem_cons.mpr (Or.inr (Multiset.mem_cons.mpr (Or.inr hp)))
    obtain ⟨M', hsnd, hfst, hle⟩ := exchange_core wa wb (STree.node l r).maxd Wr
      w1 w2 M hw hdbound hmina hminb
    obtain ⟨tc0, htc0⟩ := hall 0 0
    have hshape : ((wa + wb, (STree.node l r).maxd - 1) ::ₘ M').map Prod.snd =
        tc0.dm.map Prod.snd := by
      rw [htc0]
      simp only [Multiset.map_cons, hsnd]
    obtain ⟨Tc, hTc⟩ := realize_shape tc0 _ hshape
    refine ⟨Tc, ?_, ?_⟩
    · unfold STree.wts
      rw [hTc]
      simp only [Multiset.map_cons, hfst]
    · have hcTc : Tc.cost = (wa + wb) * ((STree.node l r).maxd - 1) +
          (M'.map fun p => p.1 * p.2).sum := by
        rw [STree.cost_eq_dm, hTc]
        simp only [Multiset.map_cons, Multiset.sum_cons]
      have hcT : (STree.node l r).cost = w1 * (STree.node l r).maxd +
          w2 * (STree.node l r).maxd + (M.map fun p => p.1 * p.2).sum := by
        rw [STree.cost_eq_dm, hdm]
        simp only [Multiset.map_cons, Multiset.sum_cons]
        ring
      have hd1 : 1 ≤ (STree.node l r).maxd := STree.maxd_pos l r
      have hsplit : (wa + wb) * ((STree.node l r).maxd - 1) + (wa + wb) =
          (wa + wb) * (STree.node l r).maxd := by
        obtain ⟨k, hk⟩ := Nat.exists_eq_add_of_le hd1
        rw [hk]
        have hk1 : 1 + k - 1 = k := by omega
        rw [hk1]
        ring
      linarith

/-- The merging loop projected to weights: pop the leftmost minimum. -/
def popMinW : List Nat → Option (Nat × List Nat)
  | [] => none
  | n :: rest =>
    match popMinW rest with
    | none => some (n, [])
    | some (m, r) => if m < n then some (m, n :: r) else some (n, rest)

/-- Total of the merge sums produced by the greedy loop on a weight list,
mirroring `hloop` step for step. -/
def hcost : Nat → List Nat → Nat
  | 0, _ => 0
  | fuel + 1, ws =>
    if ws.length ≤ 1 then 0
    else
      match popMinW ws with
      | none => 0
      | some (w1, r1) =>
        match popMinW r1 with
        | none => 0
        | some (w2, r2) => w1 + w2 + hcost fuel (r2 ++ [w1 + w2])

theorem popMinW_none_iff (ws : List Nat) : popMinW ws = none ↔ ws = [] := by
  cases ws with
  | nil => simp [popMinW]
  | cons n rest =>
    cases hm : popMinW rest with
    | none => simp [popMinW, hm]
    | some p =>
      obtain ⟨m, r⟩ := p
      simp only [popMinW, hm]
      constructor
      · intro h
        split at h <;> cases h
      · intro h
        cases h

theorem popMinW_perm : ∀ (ws : List Nat) (n : Nat) (rest : List Nat),
    popMinW ws = some (n, rest) → List.Perm ws (n :: rest) := by
  intro ws
  induction ws with
  | nil => intro n rest h; cases h
  | cons a t ih =>
    intro n rest h
    simp only [popMinW] at h
    cases hm : popMinW t with
    | none =>
      rw [hm] at h
      cases h
      rw [(popMinW_none_iff t).mp hm]
    | some p =>
      obtain ⟨m, r⟩ := p
      simp only [hm] at h
      by_cases hlt : m < a
      · rw [if_pos hlt] at h
        rw [Option.some.injEq, Prod.mk.injEq] at h
        obtain ⟨h2, h3⟩ := h
        rw [← h2, ← h3]
        have ht := ih m r hm
        exact (ht.cons a).trans (List.Perm.swap m a r)
      · rw [if_neg hlt] at h
        rw [Option.some.injEq, Prod.mk.injEq] at h
        obtain ⟨h2, h3⟩ := h
        rw [← h2, ← h3]

theorem popMinW_min : ∀ (ws : List Nat) (n : Nat) (rest : List Nat),
    popMinW ws = some (n, rest) → ∀ m ∈ ws, n ≤ m := by
  intro ws
  induction ws with
  | nil => intro n rest h; cases h
  | cons a t ih =>
    intro n rest h m hm
    simp only [popMinW] at h
    cases hp : popMinW t with
    | none =>
      rw [hp] at h
      cases h
      rw [(popMinW_none_iff t).mp hp] at hm
      rcases List.mem_cons.mp hm with rfl | hmt
      · exact Nat.le_refl _
      · simp at hmt
    | some p =>
      obtain ⟨m0, r0⟩ := p
      simp only [hp] at h
      by_cases hlt : m0 < a
      · rw [if_pos hlt] at h
        cases h
        rcases List.mem_cons.mp hm with rfl | hmt
        · exact Nat.le_of_lt hlt
        · exact ih _ _ hp m hmt
      · rw [if_neg hlt] at h
        cases h
        rcases List.mem_cons.mp hm with rfl | hmt
        · exact Nat.le_refl _
        · have hle := ih _ _ hp m hmt
          omega

theorem popMinW_length {ws : List Nat} {n : Nat} {rest : List Nat}
    (h : popMinW ws = some (n, rest)) : ws.length = rest.length + 1 := by
  have hp := (popMinW_perm ws n rest h).length_eq
  simpa using hp

/-- Popping a node corresponds to popping its frequency at weight
level. -/
theorem popMinW_map_freq : ∀ (heap : List Node) (n : Node) (rest : List Node),
    popMin heap = some (n, rest) →
    popMinW (heap.map Node.freq) = some (n.freq, rest.map Node.freq) := by
  intro heap
  induction heap with
  | nil => intro n rest h; cases h
  | cons a t ih =>
    intro n rest h
    simp only [popMin] at h
    simp only [List.map_cons, popMinW]
    cases hm : popMin t with
    | none =>
      simp only [hm] at h
      rw [Option.some.injEq, Prod.mk.injEq] at h
      obtain ⟨h1, h2⟩ := h
      have ht : t = [] := (popMin_none_iff t).mp hm
      subst ht
      rw [← h1, ← h2]
      rfl
    | some p =>
      obtain ⟨m, r⟩ := p
      simp only [hm] at h
      have ihm := ih m r hm
      rw [ihm]
      by_cases hlt : m.freq < a.freq
      · rw [if_pos hlt] at h
        rw [Option.some.injEq, Prod.mk.injEq] at h
        obtain ⟨h1, h2⟩ := h
        rw [← h1, ← h2]
        simp [hlt]
      · rw [if_neg hlt] at h
        rw [Option.some.injEq, Prod.mk.injEq] at h
        obtain ⟨h1, h2⟩ := h
        rw [← h1, ← h2]
        simp [hlt]

/-- The greedy merge total is a lower bound on the cost of every code
tree over the same weight distribution. -/
theorem hcost_le : ∀ (fuel : Nat) (ws : List Nat), ws.length ≤ fuel + 1 →
    ∀ T : STree, T.wts = (ws : Multiset Nat) → hcost fuel ws ≤ T.cost := by
  intro fuel
  induction fuel with
  | zero =>
    intro ws _ T _
    exact Nat.zero_le _
  | succ fuel ih =>
    intro ws hlen T hT
    by_cases h1 : ws.length ≤ 1
    · simp only [hcost, if_pos h1]
      exact Nat.zero_le _
    · cases hp1 : popMinW ws with
      | none =>
        simp only [hcost, if_neg h1, hp1]
        exact Nat.zero_le _
      | some p1 =>
        obtain ⟨w1, r1⟩ := p1
        cases hp2 : popMinW r1 with
        | none =>
          simp only [hcost, if_neg h1, hp1, hp2]
          exact Nat.zero_le _
        | some p2 =>
          obtain ⟨w2, r2⟩ := p2
          have hh : hcost (fuel + 1) ws = w1 + w2 + hcost fuel (r2 ++ [w1 + w2]) := by
            simp only [hcost, if_neg h1, hp1, hp2]
          have hperm1 := popMinW_perm ws w1 r1 hp1
          have hperm2 := popMinW_perm r1 w2 r2 hp2
          have hws : (ws : Multiset Nat) = w1 ::ₘ w2 ::ₘ (r2 : Multiset Nat) := by
            have e1 := Multiset.coe_eq_coe.mpr hperm1
            have e2 := Multiset.coe_eq_coe.mpr hperm2
            rw [e1, ← Multiset.cons_coe, e2, ← Multiset.cons_coe]
          have hmin1 : ∀ w ∈ (r2 : Multiset Nat), w1 ≤ w := by
            intro w hw
            refine popMinW_min ws w1 r1 hp1 w ?_
            have hw1 : w ∈ r1 :=
              hperm2.mem_iff.mpr (List.mem_cons_of_mem _ (Multiset.mem_coe.mp hw))
            exact hperm1.mem_iff.mpr (List.mem_cons_of_mem _ hw1)
          have hmin2 : ∀ w ∈ (r2 : Multiset Nat), w2 ≤ w := by
            intro w hw
            exact popMinW_min r1 w2 r2 hp2 w
              (hperm2.mem_iff.mpr (List.mem_cons_of_mem _ (Multiset.mem_coe.mp hw)))
          obtain ⟨Tc, hTcw, hTcost⟩ := exchange_step T w1 w2 (r2 : Multiset Nat)
            (by rw [hT, hws]) hmin1 hmin2
          have hTcw' : Tc.wts = ((r2 ++ [w1 + w2] : List Nat) : Multiset Nat) := by
            rw [hTcw, ← Multiset.coe_add, Multiset.coe_singleton,
              add_comm ((r2 : Multiset Nat)) ({w1 + w2} : Multiset Nat),
              Multiset.singleton_add]
          have hlen' : (r2 ++ [w1 + w2]).length ≤ fuel + 1 := by
            have l1 := popMinW_length hp1
            have l2 := popMinW_length hp2
            simp only [List.length_append, List.length_cons, List.length_nil]
            omega
          have hrec := ih (r2 ++ [w1 + w2]) hlen' Tc hTcw'
          omega

theorem erase_wt_of_freqOk : ∀ u : Node, freqOk u = true → (erase u).wt = u.freq := by
  intro u
  induction u with
  | leaf c f => intro _; rfl
  | node f l r ihl ihr =>
    intro h
    simp only [freqOk, Bool.and_eq_true, beq_iff_eq] at h
    obtain ⟨⟨hf, hl⟩, hr⟩ := h
    show (erase l).wt + (erase r).wt = f
    rw [ihl hl, ihr hr]
    omega

theorem wts_erase_eq_leafData (t : Node) :
    (erase t).wts = (leafData t).map Prod.snd := by
  induction t with
  | leaf c f => rfl
  | node f l r ihl ihr =>
    show (((erase l).dm + (erase r).dm).map
      (fun p => (p.1, p.2 + 1))).map Prod.fst = _
    rw [Multiset.map_map]
    have hcomp : (Prod.fst ∘ fun p : Nat × Nat => (p.1, p.2 + 1)) = Prod.fst := rfl
    rw [hcomp]
    show ((erase l).dm + (erase r).dm).map Prod.fst =
      (leafData l + leafData r).map Prod.snd
    rw [Multiset.map_add, Multiset.map_add]
    exact congrArg₂ HAdd.hAdd ihl ihr

theorem counter_ne_nil (text : List Char) (h : text ≠ []) : counter text ≠ [] := by
  cases text with
  | nil => exact absurd rfl h
  | cons c rest =>
    intro hc
    have hm : c ∈ (counter (c :: rest)).map Prod.fst := by
      unfold counter
      rw [mem_keys_counter_aux]
      exact Or.inr (List.mem_cons_self _ _)
    rw [hc] at hm
    simp at hm

/-- Cost bookkeeping of the merging loop: the final tree's cost is the
sum of the piece costs of the forest plus the greedy merge total at the
level of weights. -/
theorem hloop_cost : ∀ (fuel : Nat) (heap : List Node) (root : Node),
    hloop fuel heap = [root] → (∀ u ∈ heap, freqOk u = true) →
    (erase root).cost =
      (heap.map (fun u => (erase u).cost)).sum + hcost fuel (heap.map Node.freq) := by
  intro fuel
  induction fuel with
  | zero =>
    intro heap root h hOk
    have hh : heap = [root] := h
    subst hh
    simp [hcost]
  | succ fuel ih =>
    intro heap root h hOk
    by_cases h1 : heap.length ≤ 1
    · have hh : heap = [root] := by
        simp only [hloop, if_pos h1] at h
        exact h
      subst hh
      simp [hcost]
    · cases hp1 : popMin heap with
      | none =>
        exfalso
        rw [(popMin_none_iff heap).mp hp1, List.length_nil] at h1
        omega
      | some p1 =>
        obtain ⟨n1, r1⟩ := p1
        have hlen1 := popMin_length hp1
        have hr1ne : r1 ≠ [] := by
          intro hh
          rw [hh, List.length_nil] at hlen1
          omega
        cases hp2 : popMin r1 with
        | none => exact absurd ((popMin_none_iff r1).mp hp2) hr1ne
        | some p2 =>
          obtain ⟨n2, r2⟩ := p2
          have hstep : hloop (fuel + 1) heap =
              hloop fuel (r2 ++ [Node.node (n1.freq + n2.freq) n1 n2]) := by
            simp only [hloop, if_neg h1, hp1, hp2]
          rw [hstep] at h
          have hf1 := hOk n1 (popMin_self_mem hp1)
          have hf2 := hOk n2 (popMin_mem hp1 (popMin_self_mem hp2))
          have hOk' : ∀ u ∈ r2 ++ [Node.node (n1.freq + n2.freq) n1 n2],
              freqOk u = true := by
            intro u hu
            rcases List.mem_append.mp hu with hu | hu
            · exact hOk u (popMin_mem hp1 (popMin_mem hp2 hu))
            · rcases List.mem_singleton.mp hu with rfl
              simp [freqOk, hf1, hf2]
          have hrec := ih _ root h hOk'
          have hsum : ((r2 ++ [Node.node (n1.freq + n2.freq) n1 n2]).map
              (fun u => (erase u).cost)).sum =
              (r2.map (fun u => (erase u).cost)).sum + ((erase n1).cost +
                (erase n2).cost + (erase n1).wt + (erase n2).wt) := by
            rw [List.map_append, List.sum_append]
            simp only [List.map_cons, List.map_nil, List.sum_cons, List.sum_nil]
            show _ + ((STree.node (erase n1) (erase n2)).cost + 0) = _
            simp only [STree.cost]
            ring
          have hperm_sum : (heap.map (fun u => (erase u).cost)).sum =
              (erase n1).cost + (erase n2).cost +
                (r2.map (fun u => (erase u).cost)).sum := by
            have p1p := (popMin_perm heap n1 r1 hp1).map (fun u => (erase u).cost)
            have p2p := (popMin_perm r1 n2 r2 hp2).map (fun u => (erase u).cost)
            rw [p1p.sum_eq]
            simp only [List.map_cons, List.sum_cons]
            rw [p2p.sum_eq]
            simp only [List.map_cons, List.sum_cons]
            ring
          have hw1 := popMinW_map_freq heap n1 r1 hp1
          have hw2 := popMinW_map_freq r1 n2 r2 hp2
          have hlenW : ¬ (heap.map Node.freq).length ≤ 1 := by
            rw [List.length_map]
            exact h1
          have hcost_step : hcost (fuel + 1) (heap.map Node.freq) =
              n1.freq + n2.freq +
                hcost fuel (r2.map Node.freq ++ [n1.freq + n2.freq]) := by
            simp only [hcost, if_neg hlenW, hw1, hw2]
          have hmapmerge : (r2 ++ [Node.node (n1.freq + n2.freq) n1 n2]).map Node.freq =
              r2.map Node.freq ++ [n1.freq + n2.freq] := by
            simp [Node.freq]
          have hwt1 : (erase n1).wt = n1.freq := erase_wt_of_freqOk n1 hf1
          have hwt2 : (erase n2).wt = n2.freq := erase_wt_of_freqOk n2 hf2
          rw [hmapmerge] at hrec
          rw [hsum, hwt1, hwt2] at hrec
          rw [hperm_sum, hcost_step]
          omega

/-- C5: confirmed.  For every non-empty text, the tree the builder returns
realizes the text's frequency distribution at its leaves, its cost is the
weighted path length (the sum over the leaves of frequency times depth,
the code length), and no code-shape tree over the same distribution has
smaller cost: the weighted path length of the generated tree equals the
theoretical minimum for that distribution. -/
theorem C5_optimal (text : List Char) (root : Node)
    (hne : text ≠ []) (hroot : build_huffman_tree text = some root) :
    (erase root).wts = (((counter text).map Prod.snd : List Nat) : Multiset Nat) ∧
    (erase root).cost = ((erase root).dm.map fun p => p.1 * p.2).sum ∧
    ∀ T : STree, T.wts = (erase root).wts → (erase root).cost ≤ T.cost := by
  have hcne := counter_ne_nil text hne
  set heap := (counter text).map (fun p => Node.leaf p.1 p.2) with hheap
  have hne' : heap ≠ [] := by
    simp only [hheap, ne_eq, List.map_eq_nil_iff]
    exact hcne
  obtain ⟨r0, hr0, hld, -, -, -⟩ := hloop_spec heap.length heap hne' (Nat.le_succ _)
  have hb : build_huffman_tree text = some r0 := by
    simp only [build_huffman_tree]
    rw [← hheap, hr0]
  rw [hroot] at hb
  rw [Option.some.injEq] at hb
  subst hb
  have hOk : ∀ u ∈ heap, freqOk u = true := by
    intro u hu
    rw [hheap] at hu
    obtain ⟨p, _, rfl⟩ := List.mem_map.mp hu
    rfl
  have hldc : leafData root = ((counter text : List (Char × Nat)) : Multiset (Char × Nat)) := by
    rw [hld, hheap, forestLeafData_initial]
  have hwts : (erase root).wts =
      (((counter text).map Prod.snd : List Nat) : Multiset Nat) := by
    rw [wts_erase_eq_leafData, hldc, Multiset.map_coe]
  refine ⟨hwts, STree.cost_eq_dm (erase root), ?_⟩
  intro T hT
  have hcost_eq : (erase root).cost =
      (heap.map (fun u => (erase u).cost)).sum + hcost heap.length (heap.map Node.freq) :=
    hloop_cost heap.length heap root hr0 hOk
  have hzero : (heap.map (fun u => (erase u).cost)).sum = 0 := by
    refine List.sum_eq_zero ?_
    intro x hx
    obtain ⟨u, hu, rfl⟩ := List.mem_map.mp hx
    rw [hheap] at hu
    obtain ⟨p, _, rfl⟩ := List.mem_map.mp hu
    rfl
  have hmapfreq : heap.map Node.freq = (counter text).map Prod.snd := by
    rw [hheap, List.map_map]
    rfl
  have hlenws : ((counter text).map Prod.snd).length ≤ heap.length + 1 := by
    rw [hheap]
    simp
  have hmin := hcost_le heap.length ((counter text).map Prod.snd) hlenws T
    (by rw [hT, hwts])
  rw [hcost_eq, hzero, hmapfreq]
  omega

/-- C5 witness: the text "aab" with distribution a:2, b:1. -/
theorem C5_optimal_witness :
    (erase (Node.node 3 (Node.leaf 'b' 1) (Node.leaf 'a' 2))).wts =
      (((counter ['a', 'a', 'b']).map Prod.snd : List Nat) : Multiset Nat) ∧
    (erase (Node.node 3 (Node.leaf 'b' 1) (Node.leaf 'a' 2))).cost =
      (((erase (Node.node 3 (Node.leaf 'b' 1) (Node.leaf 'a' 2))).dm.map
        fun p => p.1 * p.2).sum) ∧
    ∀ T : STree, T.wts = (erase (Node.node 3 (Node.leaf 'b' 1) (Node.leaf 'a' 2))).wts →
      (erase (Node.node 3 (Node.leaf 'b' 1) (Node.leaf 'a' 2))).cost ≤ T.cost :=
  C5_optimal ['a', 'a', 'b'] (Node.node 3 (Node.leaf 'b' 1) (Node.leaf 'a' 2))
    (by decide) (by decide)

end HuffmanApp
